import Mathlib

/-!
Verification of the genetic optimizer in src/indicators/ema.ts (second unit of
the file: the Optimizer, its breeding engine, fitness evaluator and trial
scheduler).  JavaScript numbers are modelled as rationals; the division
conventions of Lean (x / 0 = 0) replace the NaN/Infinity corners, which no
theorem below depends on.  Math.random() is modelled by an explicit tape of
rational draws, each expected to lie in the interval from 0 inclusive to 1
exclusive.  Strategy-option objects (stratOpts) are modelled as total maps
from string keys to values; a value is a number, a string, or undef (undef
also stands for the NaN produced by arithmetic on non-numbers).
-/

namespace ICT

/-- A value stored in a stratOpts object: a number, a string (for genes drawn
from a categorical list), or undefined.  undef also models NaN escaping from
arithmetic applied to a non-number. -/
inductive GVal where
  | num (q : ℚ)
  | str (s : String)
  | undef
deriving DecidableEq

/-- The Gene interface: key, numeric range with optional integer flag, and an
optional categorical list. -/
structure Gene where
  key : String
  min : ℚ
  max : ℚ
  integer : Bool := false
  list : Option (List String) := none

/-- stratOpts, a JavaScript object: a total map from keys to values. -/
abbrev Genome : Type := String → GVal

/-- Object property assignment newOpts[k] = v. -/
def gset (g : Genome) (k : String) (v : GVal) : Genome :=
  fun k' => if k' = k then v else g k'

/-- The random source: the sequence of Math.random() results still to be
consumed.  An exhausted tape yields 0 (never reached in the source, which
draws finitely many times; 0 is itself a legal Math.random() value). -/
abbrev Tape : Type := List ℚ

/-- Consume one Math.random() draw. -/
def draw (tp : Tape) : ℚ × Tape := (tp.headD 0, tp.tail)

/-- Every draw on the tape is a legal Math.random() result. -/
def tapeOK (tp : Tape) : Prop := ∀ r ∈ tp, 0 ≤ r ∧ r < 1

/-- randomBetween(min, max, integer?): uniform in the range, floored onto the
integers of the range when the integer flag is set. -/
def randomBetween (lo hi : ℚ) (int : Bool) (tp : Tape) : ℚ × Tape :=
  let r := (draw tp).1
  let tp' := (draw tp).2
  if int = true then (((⌊r * (hi - lo + 1) + lo⌋ : ℤ) : ℚ), tp')
  else (r * (hi - lo) + lo, tp')

/-- A JavaScript array index produced by randomBetween with the integer flag:
the draw is a nonnegative integer in range in every reachable use. -/
def qIdx (q : ℚ) : ℕ := (⌊q⌋).toNat

/-- Array subscript list[q] on a string array: a string, or undefined when out
of range. -/
def strAt (l : List String) (q : ℚ) : GVal :=
  match l.get? (qIdx q) with
  | some s => GVal.str s
  | none => GVal.undef

/-- One entry of portfolio.tradeHistory; only orderProfit is read. -/
structure PortfolioTrade where
  orderProfit : ℚ
deriving DecidableEq

/-- A backtest environment window; start and stop are the Date.getTime()
millisecond timestamps of the configured dates. -/
structure Backtest where
  start : ℤ
  stop : ℤ
deriving DecidableEq

/-- daysBetween(date1, date2) = Math.round of the difference in days. -/
def daysBetween (date1 date2 : ℤ) : ℤ :=
  round ((date2 - date1 : ℚ) / (1000 * 60 * 60 * 24))

/-- The per-environment fitness record. -/
structure Fitness where
  currentProfit : ℚ
  percentTradeWin : ℚ
  sharpeRat : ℚ
  tradeFrequency : ℚ
  total : ℚ
deriving DecidableEq

/-- The observable simulation state read by calcFitness: the deepFind results
and the backtest window of the trader's config.  currentProfitRaw is none when
the indicator is undefined; tradeHistoryRaw is none when the portfolio has no
trade history (the source defaults it to the empty list). -/
structure TraderSim where
  currentProfitRaw : Option ℚ
  tradeHistoryRaw : Option (List PortfolioTrade)
  backtest : Backtest

/-- calcSharpeRatio, parameterized by the square-root function (the only
non-rational operation of the source). -/
def calcSharpeRat (sqrtQ : ℚ → ℚ) (tradeHistory : List PortfolioTrade) : ℚ :=
  let sumT := (tradeHistory.map PortfolioTrade.orderProfit).sum
  let meanT := sumT / (tradeHistory.length : ℚ)
  let squaredMeanDiff :=
    (tradeHistory.map (fun t => (t.orderProfit - meanT) * (t.orderProfit - meanT))).sum
  let stdDev := sqrtQ (squaredMeanDiff / (tradeHistory.length : ℚ))
  (meanT - 5 / 1000) / stdDev

/-- The raw Sharpe value of calcFitness before clamping: computed only when
there are at least two trades, otherwise 0. -/
def rawSharpeRat (sqrtQ : ℚ → ℚ) (t : TraderSim) : ℚ :=
  if 1 < (t.tradeHistoryRaw.getD []).length then
    calcSharpeRat sqrtQ (t.tradeHistoryRaw.getD []) else 0

/-- The clamp of the source line: sharpeRatio < 0 ? 0 : sharpeRatio > 4 ? 4 :
sharpeRatio. -/
def clampRat (x : ℚ) : ℚ := if x < 0 then 0 else if 4 < x then 4 else x

/-- calcFitness(trader). -/
def calcFitness (sqrtQ : ℚ → ℚ) (t : TraderSim) : Fitness :=
  let currentProfit : ℚ :=
    match t.currentProfitRaw with
    | none => -1
    | some p => if p = 0 then -1 else p
  let tradeHistory := t.tradeHistoryRaw.getD []
  let percentTradeWin : ℚ :=
    if 0 < tradeHistory.length then
      ((tradeHistory.filter (fun tr => 1 / 500 < tr.orderProfit)).length : ℚ)
        / (tradeHistory.length : ℚ)
    else 0
  let sharpeRat : ℚ := clampRat (rawSharpeRat sqrtQ t)
  let limit : ℤ := ⌊(daysBetween t.backtest.start t.backtest.stop : ℚ) / 14⌋
  let tradeFrequency : ℚ :=
    if (limit : ℚ) < (tradeHistory.length : ℚ) then 1
    else (tradeHistory.length : ℚ) / (limit : ℚ)
  { currentProfit := currentProfit
    percentTradeWin := percentTradeWin
    sharpeRat := sharpeRat
    tradeFrequency := tradeFrequency
    total := currentProfit + 1 / 2 * percentTradeWin + 1 / 2 * tradeFrequency
      + sharpeRat / 4 }

/-- The env part of a TraderConfig read or written by the optimizer. -/
structure EnvConfig where
  backtest : Option Backtest
  aggTimes : List String
  candleSetPlugins : List String

/-- The slice of TraderConfig used by the optimizer. -/
structure TraderConfig where
  name : String
  stratOpts : Genome
  env : EnvConfig
  flush : Bool

/-- The trader status values distinguished by the optimizer (only STOP is ever
compared against). -/
inductive Status where
  | RUNNING
  | STOP
deriving DecidableEq

/-- The TraderWorker subclass of the optimizer: a config, the accumulated
fitness records (undefined until first use in the source, which behaves as the
empty list on every path), and the hasRunned flag. -/
structure TraderWorker where
  config : TraderConfig
  fitnesses : List Fitness
  hasRunned : Bool

/-- The GeneticOpts record. -/
structure GeneticOpts where
  silent : Bool
  threads : ℕ
  generation : ℕ
  popSize : ℕ
  elitism : ℕ
  mutationRate : ℚ
  envs : List Backtest
  genes : List Gene

/-- createTraderWorker: overwrites env.aggTimes and env.candleSetPlugins with
empty arrays, then builds a fresh worker with the given stratOpts and name and
hasRunned = false.  The silent flag only configures logging and is dropped. -/
def createTraderWorker (traderConfig : TraderConfig) (name : String)
    (stratOpts : Genome) : TraderWorker :=
  let cfg : TraderConfig :=
    { traderConfig with
      name := name
      stratOpts := stratOpts
      env := { traderConfig.env with aggTimes := [], candleSetPlugins := [] } }
  { config := cfg, fitnesses := [], hasRunned := false }

/-- The metric keys passed to getFitness. -/
inductive FitKey where
  | total
  | currentProfit
  | percentTradeWin
  | sharpeKey
  | tradeFrequency
deriving DecidableEq

/-- fitness[key]. -/
def Fitness.get (f : Fitness) : FitKey → ℚ
  | FitKey.total => f.total
  | FitKey.currentProfit => f.currentProfit
  | FitKey.percentTradeWin => f.percentTradeWin
  | FitKey.sharpeKey => f.sharpeRat
  | FitKey.tradeFrequency => f.tradeFrequency

/-- getFitness(trader, key = total): the mean of the metric over the trader's
fitness records (the empty-record corner, NaN in the source, is the rational 0
here; claim C10 shows the optimizer never evaluates it on an empty list). -/
def getFitness (trader : TraderWorker) (key : FitKey := FitKey.total) : ℚ :=
  ((trader.fitnesses.map (fun f => f.get key)).sum) / (trader.fitnesses.length : ℚ)

/-- Draw a uniform index into a categorical gene list and read the list there,
as in g.list[randomBetween(0, g.list.length - 1, true)]. -/
def sampleList (l : List String) (tp : Tape) : GVal × Tape :=
  let p := randomBetween 0 ((l.length : ℚ) - 1) true tp
  (strAt l p.1, p.2)

/-- One randomIndiv gene assignment: categorical genes resample from the list,
numeric genes draw uniformly from the range. -/
def sampleGene (g : Gene) (acc : Genome) (tp : Tape) : Genome × Tape :=
  match g.list with
  | some l =>
    let p := sampleList l tp
    (gset acc g.key p.1, p.2)
  | none =>
    let p := randomBetween g.min g.max g.integer tp
    (gset acc g.key (GVal.num p.1), p.2)

/-- Sequential forEach over the gene list threading the genome under
construction and the random tape. -/
def foldGenes (step : Gene → Genome → Tape → Genome × Tape) :
    List Gene → Genome → Tape → Genome × Tape
  | [], acc, tp => (acc, tp)
  | g :: gs, acc, tp =>
    let p := step g acc tp
    foldGenes step gs p.1 p.2

/-- The individual name pattern name-genG-indI. -/
def indivName (base : String) (gen ind : ℕ) : String :=
  base ++ "-gen" ++ toString gen ++ "-ind" ++ toString ind

/-- randomIndiv: every gene freshly sampled over the baseline stratOpts. -/
def randomIndiv (traderConfig : TraderConfig) (opts : GeneticOpts)
    (gen ind : ℕ) (tp : Tape) : TraderWorker × Tape :=
  let p := foldGenes sampleGene opts.genes traderConfig.stratOpts tp
  (createTraderWorker traderConfig (indivName traderConfig.name gen ind) p.1, p.2)

/-- The numeric mutation of mutate: old value plus diff, clamped into the gene
range, floored when the integer flag is set.  A non-numeric old value turns
into NaN in the source (NaN fails both clamp comparisons and stays NaN);
undef models that. -/
def mutNumVal (old : GVal) (diff lo hi : ℚ) (int : Bool) : GVal :=
  match old with
  | GVal.num q =>
    let v := q + diff
    let c := if v < lo then lo else if hi < v then hi else v
    GVal.num (if int = true then ((⌊c⌋ : ℤ) : ℚ) else c)
  | _ => GVal.undef

/-- One mutate gene step: with probability mutationRate, resample categorical
genes, or perturb numeric genes by range times uniform(0.005, 0.5) times a
random sign, clamped and floored. -/
def mutateGene (mutationRate : ℚ) (oldOpts : Genome) (g : Gene) (acc : Genome)
    (tp : Tape) : Genome × Tape :=
  let p0 := draw tp
  if p0.1 ≤ mutationRate then
    match g.list with
    | some l =>
      let p := sampleList l p0.2
      (gset acc g.key p.1, p.2)
    | none =>
      let pd := randomBetween 0 1 true p0.2
      let direction : ℚ := if pd.1 = 0 then -1 else 1
      let range := g.max - g.min
      let pm := randomBetween (5 / 1000) (1 / 2) false pd.2
      let diff := range * pm.1 * direction
      (gset acc g.key (mutNumVal (oldOpts g.key) diff g.min g.max g.integer), pm.2)
  else (acc, p0.2)

/-- mutate(traderConfig, trader, opts, gen, ind). -/
def mutate (traderConfig : TraderConfig) (trader : TraderWorker)
    (opts : GeneticOpts) (gen ind : ℕ) (tp : Tape) : TraderWorker × Tape :=
  let oldOpts := trader.config.stratOpts
  let p := foldGenes (mutateGene opts.mutationRate oldOpts) opts.genes oldOpts tp
  (createTraderWorker traderConfig (indivName traderConfig.name gen ind) p.1, p.2)

/-- One gene step of the first crossover loop: with probability 0.5 take the
gene from parent A, except that categorical genes resample from the list. -/
def crossGene (optsA : Genome) (g : Gene) (acc : Genome) (tp : Tape) :
    Genome × Tape :=
  let p0 := draw tp
  if p0.1 < 1 / 2 then
    match g.list with
    | some l =>
      let p := sampleList l p0.2
      (gset acc g.key p.1, p.2)
    | none => (gset acc g.key (optsA g.key), p0.2)
  else (acc, p0.2)

/-- One gene step of the 25-percent pass inside crossover: with probability
mutationRate, resample categorical genes from the list and numeric genes
uniformly from the whole range (this is a fresh draw, not the perturbation of
mutate). -/
def crossMutGene (mutationRate : ℚ) (g : Gene) (acc : Genome) (tp : Tape) :
    Genome × Tape :=
  let p0 := draw tp
  if p0.1 ≤ mutationRate then
    match g.list with
    | some l =>
      let p := sampleList l p0.2
      (gset acc g.key p.1, p.2)
    | none =>
      let p := randomBetween g.min g.max g.integer p0.2
      (gset acc g.key (GVal.num p.1), p.2)
  else (acc, p0.2)

/-- crossover(name, traderA, traderB, opts): start from parent B's stratOpts,
run the per-gene parent-A loop, then with probability 0.25 run the resampling
pass, and build the child worker from parent A's engine config. -/
def crossover (name : String) (traderA traderB : TraderWorker)
    (opts : GeneticOpts) (tp : Tape) : TraderWorker × Tape :=
  let p1 := foldGenes (crossGene traderA.config.stratOpts) opts.genes
    traderB.config.stratOpts tp
  let p2 := draw p1.2
  let p3 := if p2.1 < 1 / 4 then foldGenes (crossMutGene opts.mutationRate)
    opts.genes p1.1 p2.2 else (p1.1, p2.2)
  (createTraderWorker traderA.config name p3.1, p3.2)

/-- Modelled from the spec: the crossover described by claim C5 and spec
section 4.4, whose 25-percent pass is one additional mutation pass as defined
by section 4.5 (per-gene with probability mutationRate: categorical resample,
numeric perturbation of the child's value by range times uniform(0.005, 0.5)
times a random sign, clamped and floored).  It differs from the source
crossover only in that pass. -/
def crossoverClaimed (name : String) (traderA traderB : TraderWorker)
    (opts : GeneticOpts) (tp : Tape) : TraderWorker × Tape :=
  let p1 := foldGenes (crossGene traderA.config.stratOpts) opts.genes
    traderB.config.stratOpts tp
  let p2 := draw p1.2
  let p3 := if p2.1 < 1 / 4 then foldGenes (mutateGene opts.mutationRate p1.1)
    opts.genes p1.1 p2.2 else (p1.1, p2.2)
  (createTraderWorker traderA.config name p3.1, p3.2)

/-- Stable insertion into a list sorted by descending f: the new element
passes over strictly greater elements and lands before the first element not
strictly greater.  Since the element being inserted precedes the rest in the
original list, this keeps equal-f elements in original order. -/
def sortInsert {α : Type} (f : α → ℚ) (x : α) : List α → List α
  | [] => [x]
  | y :: ys => if f x < f y then y :: sortInsert f x ys else x :: y :: ys

/-- The stable descending sort by f modelling the JavaScript sort with
comparator (a, b) => f(b) - f(a) (Array.prototype.sort is stable, and a stable
sort is unique, so insertion sort is an exact model). -/
def sortDesc {α : Type} (f : α → ℚ) : List α → List α
  | [] => []
  | x :: xs => sortInsert f x (sortDesc f xs)

/-- list.splice(i, 0, x): insert x at index i (appending when i exceeds the
length, exactly as splice does). -/
def spliceInsert {α : Type} (i : ℕ) (x : α) (l : List α) : List α :=
  l.take i ++ x :: l.drop i

/-- The forEach loop of the de-duplication ranking of breedNewGeneration:
prev is the previous element of the sorted list being walked, acc the rebuilt
list (generationResort), cur the front-insertion cursor (currentIdx). -/
def rebuildAux {α : Type} (f : α → ℚ) : α → List α → List α → ℕ → List α
  | _, [], acc, _ => acc
  | prev, y :: ys, acc, cur =>
    if f y = f prev then rebuildAux f y ys (acc ++ [y]) cur
    else rebuildAux f y ys (spliceInsert cur y acc) (cur + 1)

/-- The rebuild step of the ranking: the element at index 0 is kept first, then
the loop walks the rest with the cursor starting at 1. -/
def rebuild {α : Type} (f : α → ℚ) : List α → List α
  | [] => []
  | x :: xs => rebuildAux f x xs [x] 1

/-- Length of the maximal chain-equal run continuing x at the front of the
list (each element compared with its predecessor, as the source compares
generation[idx] with generation[idx - 1]). -/
def runLen {α : Type} (f : α → ℚ) : α → List α → ℕ
  | _, [] => 0
  | x, y :: ys => if f y = f x then runLen f y ys + 1 else 0

/-- Split a list into the heads of its chain-equal runs and the concatenation
of the run tails: the specification of what rebuild computes. -/
def runsSplit {α : Type} (f : α → ℚ) : List α → List α × List α
  | [] => ([], [])
  | x :: xs =>
    let n := runLen f x xs
    let q := runsSplit f (xs.drop n)
    (x :: q.1, xs.take n ++ q.2)
termination_by l => l.length
decreasing_by simp only [List.length_drop, List.length_cons]; omega

/-- The membership test used to state stability: does an element carry the
fitness value q. -/
def fitEq {α : Type} (f : α → ℚ) (q : ℚ) : α → Bool := fun z => decide (f z = q)

/-- The whole de-duplication ranking: descending stable sort, then rebuild. -/
def rank {α : Type} (f : α → ℚ) (l : List α) : List α := rebuild f (sortDesc f l)

/-- The ranking as applied by breedNewGeneration: by aggregate total fitness. -/
def rankGeneration (generation : List TraderWorker) : List TraderWorker :=
  rank (fun t => getFitness t) generation

/-- A placeholder worker standing for the undefined produced by an
out-of-range JavaScript array subscript; never reached under an in-range
random tape. -/
def dummyTrader : TraderWorker :=
  { config := { name := "", stratOpts := fun _ => GVal.undef,
                env := { backtest := none, aggTimes := [], candleSetPlugins := [] },
                flush := false }
    fitnesses := []
    hasRunned := false }

/-- checkSameFitness of tournamentSelection. -/
def checkSameFitness (indivs : List TraderWorker) (fitness : ℚ) : Bool :=
  indivs.any (fun trader => decide (getFitness trader = fitness))

/-- generation[randomBetween(0, generation.length - 1, true)]. -/
def pickRandom (generation : List TraderWorker) (tp : Tape) :
    TraderWorker × Tape :=
  let p := randomBetween 0 ((generation.length : ℚ) - 1) true tp
  (generation.getD (qIdx p.1) dummyTrader, p.2)

/-- The redraw loop of tournamentSelection: while j++ < generation.length and
the candidate's fitness already occurs among the chosen, draw again. -/
def tournamentRedraw (generation chosen : List TraderWorker) :
    TraderWorker → ℕ → Tape → TraderWorker × Tape
  | trader, j, tp =>
    if h : j < generation.length ∧
        checkSameFitness chosen (getFitness trader) = true then
      let p := pickRandom generation tp
      tournamentRedraw generation chosen p.1 (j + 1) p.2
    else (trader, tp)
termination_by trader j tp => generation.length - j

/-- Gather the tournament participants one by one. -/
def tournamentGather (generation : List TraderWorker) :
    ℕ → List TraderWorker → Tape → List TraderWorker × Tape
  | 0, traders, tp => (traders, tp)
  | n + 1, traders, tp =>
    let p0 := pickRandom generation tp
    let p := tournamentRedraw generation traders p0.1 0 p0.2
    tournamentGather generation n (traders ++ [p.1]) p.2

/-- tournamentSelection(generation, participant = 4): four draws avoiding
duplicate fitness, then the best two by descending fitness. -/
def tournamentSelection (generation : List TraderWorker) (tp : Tape) :
    List TraderWorker × Tape :=
  let p := tournamentGather generation 4 [] tp
  ((sortDesc (fun t => getFitness t) p.1).take 2, p.2)

/-- The while loop of breedNewGeneration filling the new generation up to
popSize: crossover with probability 0.6, mutation with probability 0.3, a
fresh random individual with probability 0.1. -/
def breedLoop (traderConfig : TraderConfig) (ranked : List TraderWorker)
    (opts : GeneticOpts) (gen : ℕ) : List TraderWorker → Tape →
    List TraderWorker × Tape
  | acc, tp =>
    if h : acc.length < opts.popSize then
      let p0 := draw tp
      if p0.1 < 3 / 5 then
        let ps := tournamentSelection ranked p0.2
        let t1 := ps.1.getD 0 dummyTrader
        let t2 := ps.1.getD 1 dummyTrader
        let pc := crossover (indivName traderConfig.name gen acc.length) t1 t2
          opts ps.2
        breedLoop traderConfig ranked opts gen (acc ++ [pc.1]) pc.2
      else if p0.1 < 9 / 10 then
        let pt := pickRandom ranked p0.2
        let pm := mutate traderConfig pt.1 opts gen acc.length pt.2
        breedLoop traderConfig ranked opts gen (acc ++ [pm.1]) pm.2
      else
        let pr := randomIndiv traderConfig opts gen acc.length p0.2
        breedLoop traderConfig ranked opts gen (acc ++ [pr.1]) pr.2
    else (acc, tp)
termination_by acc tp => opts.popSize - acc.length
decreasing_by
  all_goals simp only [List.length_append, List.length_cons, List.length_nil]; omega

/-- breedNewGeneration: rank the prior generation, seed with the first
elitism-many ranked individuals verbatim, then fill with bred children. -/
def breedNewGeneration (traderConfig : TraderConfig)
    (generation : List TraderWorker) (opts : GeneticOpts) (gen : ℕ)
    (tp : Tape) : List TraderWorker × Tape :=
  let ranked := rankGeneration generation
  let bestIndivs := ranked.take opts.elitism
  breedLoop traderConfig ranked opts gen bestIndivs tp

/-- The population-building loop of makeGeneration, from index ind up. -/
def makeGenerationAux (traderConfig : TraderConfig) (opts : GeneticOpts)
    (gen : ℕ) : ℕ → Tape → List TraderWorker × Tape
  | ind, tp =>
    if h : ind < opts.popSize then
      let p : TraderWorker × Tape :=
        if ind = 0 then
          (createTraderWorker traderConfig (indivName traderConfig.name gen ind)
            traderConfig.stratOpts, tp)
        else randomIndiv traderConfig opts gen ind tp
      let q := makeGenerationAux traderConfig opts gen (ind + 1) p.2
      (p.1 :: q.1, q.2)
    else ([], tp)
termination_by ind tp => opts.popSize - ind
decreasing_by omega

/-- makeGeneration: individual 0 is the unmutated baseline config, the rest
are random individuals. -/
def makeGeneration (traderConfig : TraderConfig) (opts : GeneticOpts)
    (gen : ℕ) (tp : Tape) : List TraderWorker × Tape :=
  makeGenerationAux traderConfig opts gen 0 tp

/-- One engine operation performed by a trial task, recorded in a trace;
stopCatch is the best-effort stop attempted inside the catch block. -/
inductive EngineCall where
  | init (env : ℕ)
  | start (env : ℕ)
  | stop (env : ℕ)
  | stopCatch
deriving DecidableEq

/-- How a task promise settles: resolve, or reject with the caught error. -/
inductive TaskResult where
  | fulfilled
  | rejected (e : String)
deriving DecidableEq

/-- The behaviour of one individual's simulation engine, abstracting the
external TraderWorker base class: the outcome of init, start and stop per
environment index, the fitness record calcFitness reads after a successful
environment, the trader status observed inside the catch block, and the
outcome of the best-effort stop attempted there (its error is only logged, so
it must not influence anything; see the isolation theorems). -/
structure Engine where
  initR : ℕ → Except String Unit
  startR : ℕ → Except String Unit
  stopR : ℕ → Except String Unit
  fitAt : ℕ → Fitness
  status : Status
  stopCatchR : Except String Unit

/-- The sentinel record pushed when a trial throws. -/
def sentinelFitness : Fitness :=
  { currentProfit := -1, percentTradeWin := -1, sharpeRat := -1,
    tradeFrequency := -1, total := -1 }

/-- The for loop over the environments inside one trial task, starting at
environment index i: set the backtest window and flush flag, init, start,
stop, then append the fitness record; the first error aborts the loop and is
returned. -/
def runEnvLoop (eng : Engine) : List Backtest → ℕ → TraderWorker →
    List EngineCall → TraderWorker × List EngineCall × Option String
  | [], _, t, tr => (t, tr, none)
  | e :: rest, i, t, tr =>
    let t1 : TraderWorker :=
      { t with config :=
          { t.config with
            env := { t.config.env with backtest := some e }
            flush := i = 0 } }
    match eng.initR i with
    | Except.error s => (t1, tr ++ [EngineCall.init i], some s)
    | Except.ok _ =>
      match eng.startR i with
      | Except.error s => (t1, tr ++ [EngineCall.init i, EngineCall.start i], some s)
      | Except.ok _ =>
        match eng.stopR i with
        | Except.error s =>
          (t1, tr ++ [EngineCall.init i, EngineCall.start i, EngineCall.stop i], some s)
        | Except.ok _ =>
          let t2 := { t1 with fitnesses := t1.fitnesses ++ [eng.fitAt i] }
          runEnvLoop eng rest (i + 1) t2
            (tr ++ [EngineCall.init i, EngineCall.start i, EngineCall.stop i])

/-- One trial task of Optimizer.genetic: skip the pipeline when hasRunned is
already true; otherwise run every environment, and on an exception append the
sentinel record, attempt a best-effort stop when the trader is not already
stopped, and reject with the original error (hasRunned stays false). -/
def runTask (eng : Engine) (envs : List Backtest) (t : TraderWorker) :
    TraderWorker × TaskResult × List EngineCall :=
  if t.hasRunned = true then ({ t with hasRunned := true }, TaskResult.fulfilled, [])
  else
    match runEnvLoop eng envs 0 t [] with
    | (t', tr, none) => ({ t' with hasRunned := true }, TaskResult.fulfilled, tr)
    | (t', tr, some e) =>
      let t2 := { t' with fitnesses := t'.fitnesses ++ [sentinelFitness] }
      let tr2 := if eng.status ≠ Status.STOP then tr ++ [EngineCall.stopCatch] else tr
      (t2, TaskResult.rejected e, tr2)

/-- All tasks of one generation, each with its own engine behaviour; the
worker pool settles every task regardless of concurrency order, so its
observable outcome is the list of settled task results. -/
def runGenerationAux (engFor : ℕ → Engine) (envs : List Backtest) :
    ℕ → List TraderWorker → List (TraderWorker × TaskResult × List EngineCall)
  | _, [] => []
  | i, t :: ts => runTask (engFor i) envs t :: runGenerationAux engFor envs (i + 1) ts

/-- Run a whole generation. -/
def runGeneration (engFor : ℕ → Engine) (envs : List Backtest)
    (generation : List TraderWorker) :
    List (TraderWorker × TaskResult × List EngineCall) :=
  runGenerationAux engFor envs 0 generation

/-- Placeholder result for out-of-range indexing into a result list. -/
def dummyResult : TraderWorker × TaskResult × List EngineCall :=
  (dummyTrader, TaskResult.fulfilled, [])

/-- An engine that never throws. -/
def allOk (eng : Engine) : Prop :=
  ∀ i, eng.initR i = Except.ok () ∧ eng.startR i = Except.ok ()
    ∧ eng.stopR i = Except.ok ()

/-- Engine behaviour succeeding on every environment before index j. -/
def okUpTo (eng : Engine) (j : ℕ) : Prop :=
  ∀ i, i < j → eng.initR i = Except.ok () ∧ eng.startR i = Except.ok ()
    ∧ eng.stopR i = Except.ok ()

/-- The trial throws at environment index j: one of init, start, stop of that
environment rejects with error e (the earlier calls of index j succeeding). -/
def failsAt (eng : Engine) (j : ℕ) (e : String) : Prop :=
  eng.initR j = Except.error e
  ∨ (eng.initR j = Except.ok () ∧ eng.startR j = Except.error e)
  ∨ (eng.initR j = Except.ok () ∧ eng.startR j = Except.ok ()
      ∧ eng.stopR j = Except.error e)

/-- Whether a worker's env config has aggregation and plugins cleared. -/
def envCleared (t : TraderWorker) : Bool :=
  t.config.env.aggTimes.isEmpty && t.config.env.candleSetPlugins.isEmpty

/-- The constraint a gene imposes on a produced value: an element of the list
for categorical genes; for numeric genes a number in the range, integral when
the integer flag is set. -/
def geneOK (g : Gene) (v : GVal) : Prop :=
  match g.list with
  | some l => ∃ s ∈ l, v = GVal.str s
  | none => ∃ q : ℚ, v = GVal.num q ∧ g.min ≤ q ∧ q ≤ g.max
      ∧ (g.integer = true → ∃ n : ℤ, q = (n : ℚ))

/-- Well-formedness of a gene: a non-empty list when present; otherwise an
ordered range whose endpoints are integral when the integer flag is set. -/
def geneWF (g : Gene) : Prop :=
  match g.list with
  | some l => l ≠ []
  | none => g.min ≤ g.max
      ∧ (g.integer = true →
          (∃ a : ℤ, g.min = (a : ℚ)) ∧ (∃ b : ℤ, g.max = (b : ℚ)))

/-- The ill-formed gene of the counterexample to claim C2: integer flag set on
a fractional range. -/
def cexGene : Gene := { key := "p", min := 1 / 2, max := 3 / 2, integer := true }

/-- Concrete GeneticOpts around cexGene. -/
def cexOpts : GeneticOpts :=
  { silent := true, threads := 1, generation := 1, popSize := 2, elitism := 1,
    mutationRate := 1 / 2, envs := [{ start := 0, stop := 1209600000 }],
    genes := [cexGene] }

/-- Concrete TraderConfig for counterexamples and witnesses. -/
def cexConfig : TraderConfig :=
  { name := "sim", stratOpts := fun _ => GVal.num 5,
    env := { backtest := none, aggTimes := ["15m"], candleSetPlugins := ["p"] },
    flush := true }

/-- A well-formed integer gene for witnesses. -/
def wGene : Gene := { key := "p", min := 0, max := 10, integer := true }

/-- Concrete GeneticOpts around wGene. -/
def wOpts : GeneticOpts :=
  { silent := true, threads := 1, generation := 1, popSize := 2, elitism := 1,
    mutationRate := 1 / 2, envs := [{ start := 0, stop := 1209600000 }],
    genes := [wGene] }

/-- A concrete well-behaved random tape. -/
def wTape : Tape := [1 / 3, 1 / 3, 1 / 3, 1 / 3, 1 / 3]

/-- A concrete engine behaviour that always succeeds. -/
def engOK0 : Engine :=
  { initR := fun _ => Except.ok (), startR := fun _ => Except.ok (),
    stopR := fun _ => Except.ok (), fitAt := fun _ => sentinelFitness,
    status := Status.STOP, stopCatchR := Except.ok () }

/-- A concrete one-environment list. -/
def envs0 : List Backtest := [{ start := 0, stop := 1209600000 }]

/-- An invalid GenerationConfig in the sense of claim C4: empty gene list and
elitism not below population size. -/
def cexOptsC4 : GeneticOpts :=
  { silent := true, threads := 1, generation := 1, popSize := 3, elitism := 5,
    mutationRate := 1 / 2, envs := envs0, genes := [] }

/-- A numeric non-integer gene for the crossover counterexample. -/
def cGene : Gene := { key := "p", min := 0, max := 10 }

/-- GeneticOpts around cGene. -/
def cOpts5 : GeneticOpts :=
  { silent := true, threads := 1, generation := 1, popSize := 2, elitism := 1,
    mutationRate := 1 / 2, envs := envs0, genes := [cGene] }

/-- Crossover parent A with gene p set to 5. -/
def tA0 : TraderWorker :=
  createTraderWorker cexConfig "a" (gset (fun _ => GVal.undef) "p" (GVal.num 5))

/-- Crossover parent B with gene p set to 5. -/
def tB0 : TraderWorker :=
  createTraderWorker cexConfig "b" (gset (fun _ => GVal.undef) "p" (GVal.num 5))

/-- The random tape of the crossover counterexample: keep parent B's gene,
enter the 25-percent pass, mutate the gene, then one or two value draws. -/
def tape5 : Tape := [9 / 10, 1 / 10, 1 / 10, 9 / 10, 3 / 10]

/-- Modelled from the spec (the amended wording of claim C5): crossover starts
from parent B's genome; per gene, with probability 0.5 it takes parent A's
value, except that categorical genes resample from the list; with probability
0.25 it applies an additional pass that, per gene with probability
mutationRate, resamples categorical genes from the list and numeric genes
uniformly from the whole range (floored when the integer flag is set); the
child is built with hasRunned false. -/
def crossoverAmendedSpec (name : String) (traderA traderB : TraderWorker)
    (opts : GeneticOpts) (tp : Tape) : TraderWorker × Tape :=
  let p1 := foldGenes (fun g acc tpg =>
    let p0 := draw tpg
    if p0.1 < 1 / 2 then
      match g.list with
      | some l =>
        let p := sampleList l p0.2
        (gset acc g.key p.1, p.2)
      | none => (gset acc g.key (traderA.config.stratOpts g.key), p0.2)
    else (acc, p0.2)) opts.genes traderB.config.stratOpts tp
  let p2 := draw p1.2
  let p3 := if p2.1 < 1 / 4 then
      foldGenes (fun g acc tpg =>
        let p0 := draw tpg
        if p0.1 ≤ opts.mutationRate then
          match g.list with
          | some l =>
            let p := sampleList l p0.2
            (gset acc g.key p.1, p.2)
          | none =>
            let p := randomBetween g.min g.max g.integer p0.2
            (gset acc g.key (GVal.num p.1), p.2)
        else (acc, p0.2)) opts.genes p1.1 p2.2
    else (p1.1, p2.2)
  (createTraderWorker traderA.config name p3.1, p3.2)

end ICT

namespace ICT

/-- Claim C1.  For every completed trial the fitness record returned by
calcFitness has total equal to currentProfit plus half percentTradeWin plus
half tradeFrequency plus a quarter of sharpeRatio, where the sharpeRatio field
is the raw Sharpe value clamped into the interval from 0 to 4 and the
currentProfit field is forced to -1 exactly when the raw indicator is 0 or
undefined. -/
theorem calcFitness_composite (sqrtQ : ℚ → ℚ) (t : TraderSim) :
    (calcFitness sqrtQ t).total
      = (calcFitness sqrtQ t).currentProfit
        + 1 / 2 * (calcFitness sqrtQ t).percentTradeWin
        + 1 / 2 * (calcFitness sqrtQ t).tradeFrequency
        + (calcFitness sqrtQ t).sharpeRat / 4
    ∧ (calcFitness sqrtQ t).sharpeRat = clampRat (rawSharpeRat sqrtQ t)
    ∧ 0 ≤ (calcFitness sqrtQ t).sharpeRat ∧ (calcFitness sqrtQ t).sharpeRat ≤ 4
    ∧ (calcFitness sqrtQ t).currentProfit
      = (match t.currentProfitRaw with
         | none => -1
         | some p => if p = 0 then -1 else p) := by
  refine ⟨rfl, rfl, ?_, ?_, rfl⟩
  · show (0 : ℚ) ≤ clampRat (rawSharpeRat sqrtQ t)
    unfold clampRat
    split_ifs with h1 h2 <;> linarith
  · show clampRat (rawSharpeRat sqrtQ t) ≤ 4
    unfold clampRat
    split_ifs with h1 h2 <;> linarith

theorem envCleared_createTraderWorker (tc : TraderConfig) (nm : String)
    (so : Genome) : envCleared (createTraderWorker tc nm so) = true := rfl

theorem makeGenerationAux_all_envCleared (tc : TraderConfig)
    (opts : GeneticOpts) (g : ℕ) :
    ∀ (n ind : ℕ) (tp : Tape), opts.popSize - ind ≤ n →
      ((makeGenerationAux tc opts g ind tp).1.all envCleared) = true := by
  intro n
  induction n with
  | zero =>
    intro ind tp hle
    rw [makeGenerationAux]
    have : ¬ ind < opts.popSize := by omega
    simp [this]
  | succ m ih =>
    intro ind tp hle
    rw [makeGenerationAux]
    by_cases hlt : ind < opts.popSize
    · simp only [hlt, dif_pos, List.all_cons, Bool.and_eq_true]
      constructor
      · by_cases h0 : ind = 0 <;>
          simp [h0, envCleared_createTraderWorker, randomIndiv,
            envCleared, createTraderWorker]
      · exact ih (ind + 1) _ (by omega)
    · simp [hlt]

/-- Claim C8.  Every TraderWorker the optimizer constructs, whether the
baseline individual, a random individual, a mutated child or a crossover
child, has the aggTimes and candleSetPlugins of its environment configuration
overwritten with empty arrays, so the optimizer never runs a trial with candle
aggregation or candle-set plugins enabled. -/
theorem optimizer_env_cleared :
    (∀ (tc : TraderConfig) (nm : String) (so : Genome),
      (createTraderWorker tc nm so).config.env.aggTimes = []
        ∧ (createTraderWorker tc nm so).config.env.candleSetPlugins = [])
    ∧ (∀ (tc : TraderConfig) (opts : GeneticOpts) (gen ind : ℕ) (tp : Tape),
      (randomIndiv tc opts gen ind tp).1.config.env.aggTimes = []
        ∧ (randomIndiv tc opts gen ind tp).1.config.env.candleSetPlugins = [])
    ∧ (∀ (tc : TraderConfig) (t : TraderWorker) (opts : GeneticOpts)
        (gen ind : ℕ) (tp : Tape),
      (mutate tc t opts gen ind tp).1.config.env.aggTimes = []
        ∧ (mutate tc t opts gen ind tp).1.config.env.candleSetPlugins = [])
    ∧ (∀ (nm : String) (tA tB : TraderWorker) (opts : GeneticOpts) (tp : Tape),
      (crossover nm tA tB opts tp).1.config.env.aggTimes = []
        ∧ (crossover nm tA tB opts tp).1.config.env.candleSetPlugins = [])
    ∧ (∀ (tc : TraderConfig) (opts : GeneticOpts) (gen : ℕ) (tp : Tape),
      ((makeGeneration tc opts gen tp).1.all envCleared) = true) := by
  refine ⟨fun _ _ _ => ⟨rfl, rfl⟩, fun _ _ _ _ _ => ⟨rfl, rfl⟩,
    fun _ _ _ _ _ _ => ⟨rfl, rfl⟩, fun _ _ _ _ _ => ⟨rfl, rfl⟩, ?_⟩
  intro tc opts gen tp
  exact makeGenerationAux_all_envCleared tc opts gen opts.popSize 0 tp (by omega)

theorem tapeOK_tail {tp : Tape} (h : tapeOK tp) : tapeOK tp.tail := by
  intro r hr
  exact h r (List.mem_of_mem_tail hr)

theorem draw_bounds {tp : Tape} (h : tapeOK tp) :
    0 ≤ (draw tp).1 ∧ (draw tp).1 < 1 := by
  cases tp with
  | nil => simp [draw]
  | cons a l => exact h a (List.mem_cons_self a l)

theorem randomBetween_tape (lo hi : ℚ) (int : Bool) (tp : Tape) :
    (randomBetween lo hi int tp).2 = tp.tail := by
  unfold randomBetween
  split <;> rfl

theorem randomBetween_num_mem {lo hi : ℚ} {tp : Tape} (h : tapeOK tp)
    (hle : lo ≤ hi) :
    lo ≤ (randomBetween lo hi false tp).1
      ∧ (randomBetween lo hi false tp).1 ≤ hi := by
  obtain ⟨h0, h1⟩ := draw_bounds h
  unfold randomBetween
  simp only [Bool.false_eq_true, if_false]
  constructor
  · nlinarith
  · nlinarith

theorem randomBetween_int_mem {a b : ℤ} {tp : Tape} (h : tapeOK tp)
    (hab : a ≤ b) :
    ∃ n : ℤ, (randomBetween (a : ℚ) (b : ℚ) true tp).1 = (n : ℚ)
      ∧ a ≤ n ∧ n ≤ b := by
  obtain ⟨h0, h1⟩ := draw_bounds h
  have hab' : (a : ℚ) ≤ (b : ℚ) := by exact_mod_cast hab
  have hc : (0 : ℚ) < (b : ℚ) - (a : ℚ) + 1 := by linarith
  have hnn : (0 : ℚ) ≤ (draw tp).1 * ((b : ℚ) - (a : ℚ) + 1) :=
    mul_nonneg h0 (le_of_lt hc)
  have hup : (draw tp).1 * ((b : ℚ) - (a : ℚ) + 1)
      < 1 * ((b : ℚ) - (a : ℚ) + 1) := mul_lt_mul_of_pos_right h1 hc
  refine ⟨⌊(draw tp).1 * ((b : ℚ) - (a : ℚ) + 1) + (a : ℚ)⌋, ?_, ?_, ?_⟩
  · unfold randomBetween
    simp
  · rw [Int.le_floor]
    linarith
  · have := Int.floor_lt.mpr
      (by push_cast; linarith :
        ((draw tp).1 * ((b : ℚ) - (a : ℚ) + 1) + (a : ℚ)) < ((b + 1 : ℤ) : ℚ))
    omega

theorem sampleList_mem {l : List String} {tp : Tape} (h : tapeOK tp)
    (hne : l ≠ []) :
    (∃ s ∈ l, (sampleList l tp).1 = GVal.str s)
      ∧ (sampleList l tp).2 = tp.tail := by
  have hlen : 1 ≤ l.length := by
    cases l with
    | nil => exact absurd rfl hne
    | cons a t => simp
  obtain ⟨n, hn, hn0, hnb⟩ :=
    @randomBetween_int_mem 0 ((l.length : ℤ) - 1) tp h (by omega)
  rw [show ((0 : ℤ) : ℚ) = (0 : ℚ) by norm_num,
    show (((l.length : ℤ) - 1 : ℤ) : ℚ) = ((l.length : ℚ) - 1) by push_cast; ring]
    at hn
  refine ⟨?_, ?_⟩
  · have hidx : qIdx (randomBetween 0 ((l.length : ℚ) - 1) true tp).1 = n.toNat := by
      rw [hn, qIdx, Int.floor_intCast]
    have hlt : n.toNat < l.length := by omega
    refine ⟨l.get ⟨n.toNat, hlt⟩, l.get_mem _ _, ?_⟩
    show strAt l (randomBetween 0 ((l.length : ℚ) - 1) true tp).1 = _
    rw [strAt, hidx, List.get?_eq_get hlt]
  · show (randomBetween 0 ((l.length : ℚ) - 1) true tp).2 = tp.tail
    exact randomBetween_tape _ _ _ _

theorem foldGenes_frame (step : Gene → Genome → Tape → Genome × Tape)
    (hframe : ∀ g acc tp k, k ≠ g.key → (step g acc tp).1 k = acc k) :
    ∀ (genes : List Gene) (k : String), k ∉ genes.map Gene.key →
      ∀ (acc : Genome) (tp : Tape), (foldGenes step genes acc tp).1 k = acc k := by
  intro genes
  induction genes with
  | nil => intro k _ acc tp; rfl
  | cons g gs ih =>
    intro k hk acc tp
    simp only [List.map_cons, List.mem_cons, not_or] at hk
    show (foldGenes step gs (step g acc tp).1 (step g acc tp).2).1 k = acc k
    rw [ih k hk.2, hframe g acc tp k hk.1]

theorem foldGenes_tapeOK (step : Gene → Genome → Tape → Genome × Tape)
    (htape : ∀ g acc tp, tapeOK tp → tapeOK (step g acc tp).2) :
    ∀ (genes : List Gene) (acc : Genome) (tp : Tape), tapeOK tp →
      tapeOK (foldGenes step genes acc tp).2 := by
  intro genes
  induction genes with
  | nil => intro acc tp h; exact h
  | cons g gs ih =>
    intro acc tp h
    exact ih _ _ (htape g acc tp h)

theorem foldGenes_ok (step : Gene → Genome → Tape → Genome × Tape)
    (Pre : Gene → GVal → Prop)
    (hframe : ∀ g acc tp k, k ≠ g.key → (step g acc tp).1 k = acc k)
    (htape : ∀ g acc tp, tapeOK tp → tapeOK (step g acc tp).2) :
    ∀ (genes : List Gene),
      (∀ g ∈ genes, ∀ acc tp, tapeOK tp → Pre g (acc g.key) → geneWF g →
        geneOK g ((step g acc tp).1 g.key)) →
      ∀ (acc : Genome) (tp : Tape), tapeOK tp →
        (genes.map Gene.key).Nodup →
        (∀ g ∈ genes, geneWF g ∧ Pre g (acc g.key)) →
        ∀ g ∈ genes, geneOK g ((foldGenes step genes acc tp).1 g.key) := by
  intro genes
  induction genes with
  | nil => intro _ acc tp _ _ _ g hg; exact absurd hg (List.not_mem_nil g)
  | cons g0 gs ih =>
    intro hstep acc tp htp hnd hpre g hg
    have hnd' : (gs.map Gene.key).Nodup := (List.nodup_cons.mp hnd).2
    have hk0 : g0.key ∉ gs.map Gene.key := (List.nodup_cons.mp hnd).1
    have hacc1 : ∀ k, k ≠ g0.key → (step g0 acc tp).1 k = acc k :=
      fun k hk => hframe g0 acc tp k hk
    show geneOK g ((foldGenes step gs (step g0 acc tp).1 (step g0 acc tp).2).1 g.key)
    rcases List.mem_cons.mp hg with hg | hg
    · subst hg
      have hfr := foldGenes_frame step hframe gs g.key hk0 (step g acc tp).1
        (step g acc tp).2
      rw [hfr]
      obtain ⟨hwf, hp⟩ := hpre g (List.mem_cons_self g gs)
      exact hstep g (List.mem_cons_self g gs) acc tp htp hp hwf
    · have hne : g.key ≠ g0.key := by
        intro he
        exact hk0 (he ▸ List.mem_map_of_mem Gene.key hg)
      refine ih (fun g' hg' => hstep g' (List.mem_cons_of_mem g0 hg'))
        (step g0 acc tp).1 (step g0 acc tp).2 (htape g0 acc tp htp) hnd' ?_ g hg
      intro g' hg'
      obtain ⟨hwf, hp⟩ := hpre g' (List.mem_cons_of_mem g0 hg')
      by_cases hne' : g'.key = g0.key
      · have : g'.key ∈ gs.map Gene.key := List.mem_map_of_mem Gene.key hg'
        rw [hne'] at this
        exact absurd this hk0
      · rw [hacc1 g'.key hne']
        exact ⟨hwf, hp⟩

theorem gset_self (acc : Genome) (k : String) (v : GVal) : gset acc k v k = v := by
  simp [gset]

theorem randomBetween_tapeOK {tp : Tape} (lo hi : ℚ) (int : Bool)
    (h : tapeOK tp) : tapeOK (randomBetween lo hi int tp).2 := by
  rw [randomBetween_tape]
  exact tapeOK_tail h

theorem sampleList_tape (l : List String) (tp : Tape) :
    (sampleList l tp).2 = tp.tail := randomBetween_tape _ _ _ _

theorem randomBetween_geneOK {g : Gene} (hl : g.list = none) (hwf : geneWF g)
    {tp : Tape} (h : tapeOK tp) :
    geneOK g (GVal.num (randomBetween g.min g.max g.integer tp).1) := by
  simp only [geneWF, hl] at hwf
  obtain ⟨hle, hint⟩ := hwf
  simp only [geneOK, hl]
  cases hi : g.integer with
  | false =>
    obtain ⟨h1, h2⟩ := @randomBetween_num_mem g.min g.max tp h hle
    exact ⟨_, rfl, h1, h2, by simp⟩
  | true =>
    obtain ⟨⟨a, ha⟩, ⟨b, hb⟩⟩ := hint hi
    have hab : a ≤ b := by
      have : (a : ℚ) ≤ (b : ℚ) := by rw [← ha, ← hb]; exact hle
      exact_mod_cast this
    obtain ⟨n, hn, hn0, hnb⟩ := @randomBetween_int_mem a b tp h hab
    rw [← ha, ← hb] at hn
    refine ⟨(n : ℚ), by rw [hn], ?_, ?_, fun _ => ⟨n, rfl⟩⟩
    · rw [ha]; exact_mod_cast hn0
    · rw [hb]; exact_mod_cast hnb

theorem mutNumVal_ok {g : Gene} (hl : g.list = none) (hwf : geneWF g)
    {old : GVal} (hold : geneOK g old) (diff : ℚ) :
    geneOK g (mutNumVal old diff g.min g.max g.integer) := by
  simp only [geneWF, hl] at hwf
  obtain ⟨hle, hint⟩ := hwf
  simp only [geneOK, hl] at hold ⊢
  obtain ⟨q, hq, hq1, hq2, _⟩ := hold
  subst hq
  simp only [mutNumVal]
  set cc : ℚ := (if q + diff < g.min then g.min
      else if g.max < q + diff then g.max else q + diff) with hccdef
  have hcb : g.min ≤ cc ∧ cc ≤ g.max := by
    rw [hccdef]; split_ifs with h1 h2 <;> constructor <;> linarith
  cases hi : g.integer with
  | false =>
    simp only [Bool.false_eq_true, if_false]
    exact ⟨cc, rfl, hcb.1, hcb.2, by simp⟩
  | true =>
    obtain ⟨⟨a, ha⟩, ⟨b, hb⟩⟩ := hint hi
    simp only [if_true]
    refine ⟨((⌊cc⌋ : ℤ) : ℚ), rfl, ?_, ?_, fun _ => ⟨_, rfl⟩⟩
    · have h1 : a ≤ ⌊cc⌋ := Int.le_floor.mpr (by rw [← ha]; exact hcb.1)
      rw [ha]
      exact_mod_cast h1
    · exact le_trans (Int.floor_le cc) hcb.2

theorem sampleList_geneOK {g : Gene} {l : List String} (hl : g.list = some l)
    (hwf : geneWF g) {tp : Tape} (h : tapeOK tp) :
    geneOK g (sampleList l tp).1 := by
  simp only [geneWF, hl] at hwf
  simp only [geneOK, hl]
  exact (sampleList_mem h hwf).1

theorem sampleGene_frame (g : Gene) (acc : Genome) (tp : Tape) (k : String)
    (hk : k ≠ g.key) : (sampleGene g acc tp).1 k = acc k := by
  unfold sampleGene
  cases hl : g.list <;> simp [gset, hk]

theorem sampleGene_tapeOK (g : Gene) (acc : Genome) (tp : Tape)
    (h : tapeOK tp) : tapeOK (sampleGene g acc tp).2 := by
  unfold sampleGene
  cases hl : g.list with
  | none => exact randomBetween_tapeOK _ _ _ h
  | some l =>
    show tapeOK (sampleList l tp).2
    rw [sampleList_tape]
    exact tapeOK_tail h

theorem sampleGene_ok {g : Gene} (hwf : geneWF g) (acc : Genome) (tp : Tape)
    (h : tapeOK tp) : geneOK g ((sampleGene g acc tp).1 g.key) := by
  unfold sampleGene
  cases hl : g.list with
  | none =>
    show geneOK g (gset acc g.key (GVal.num _) g.key)
    rw [gset_self]
    exact randomBetween_geneOK hl hwf h
  | some l =>
    show geneOK g (gset acc g.key (sampleList l tp).1 g.key)
    rw [gset_self]
    exact sampleList_geneOK hl hwf h

theorem mutateGene_frame (mr : ℚ) (old : Genome) (g : Gene) (acc : Genome)
    (tp : Tape) (k : String) (hk : k ≠ g.key) :
    (mutateGene mr old g acc tp).1 k = acc k := by
  cases hl : g.list <;> simp only [mutateGene, hl] <;> split <;> simp [gset, hk]

theorem mutateGene_tapeOK (mr : ℚ) (old : Genome) (g : Gene) (acc : Genome)
    (tp : Tape) (h : tapeOK tp) : tapeOK (mutateGene mr old g acc tp).2 := by
  have ht := tapeOK_tail h
  cases hl : g.list with
  | none =>
    simp only [mutateGene, hl]
    split
    · exact randomBetween_tapeOK _ _ _ (randomBetween_tapeOK _ _ _ ht)
    · exact ht
  | some l =>
    simp only [mutateGene, hl]
    split
    · show tapeOK (sampleList l (draw tp).2).2
      rw [sampleList_tape]
      exact tapeOK_tail ht
    · exact ht

theorem mutateGene_ok {mr : ℚ} {old : Genome} {g : Gene} (hwf : geneWF g)
    (hold : geneOK g (old g.key)) (acc : Genome) (tp : Tape) (h : tapeOK tp)
    (hacc : geneOK g (acc g.key)) :
    geneOK g ((mutateGene mr old g acc tp).1 g.key) := by
  have ht := tapeOK_tail h
  cases hl : g.list with
  | none =>
    simp only [mutateGene, hl]
    split
    · show geneOK g (gset acc g.key (mutNumVal (old g.key) _ g.min g.max g.integer) g.key)
      rw [gset_self]
      exact mutNumVal_ok hl hwf hold _
    · exact hacc
  | some l =>
    simp only [mutateGene, hl]
    split
    · show geneOK g (gset acc g.key (sampleList l (draw tp).2).1 g.key)
      rw [gset_self]
      exact sampleList_geneOK hl hwf ht
    · exact hacc

theorem crossGene_frame (optsA : Genome) (g : Gene) (acc : Genome) (tp : Tape)
    (k : String) (hk : k ≠ g.key) : (crossGene optsA g acc tp).1 k = acc k := by
  cases hl : g.list <;> simp only [crossGene, hl] <;> split <;> simp [gset, hk]

theorem crossGene_tapeOK (optsA : Genome) (g : Gene) (acc : Genome)
    (tp : Tape) (h : tapeOK tp) : tapeOK (crossGene optsA g acc tp).2 := by
  have ht := tapeOK_tail h
  cases hl : g.list with
  | none =>
    simp only [crossGene, hl]
    split
    · exact ht
    · exact ht
  | some l =>
    simp only [crossGene, hl]
    split
    · show tapeOK (sampleList l (draw tp).2).2
      rw [sampleList_tape]
      exact tapeOK_tail ht
    · exact ht

theorem crossGene_ok {optsA : Genome} {g : Gene} (hwf : geneWF g)
    (hA : geneOK g (optsA g.key)) (acc : Genome) (tp : Tape) (h : tapeOK tp)
    (hacc : geneOK g (acc g.key)) :
    geneOK g ((crossGene optsA g acc tp).1 g.key) := by
  have ht := tapeOK_tail h
  cases hl : g.list with
  | none =>
    simp only [crossGene, hl]
    split
    · show geneOK g (gset acc g.key (optsA g.key) g.key)
      rw [gset_self]
      exact hA
    · exact hacc
  | some l =>
    simp only [crossGene, hl]
    split
    · show geneOK g (gset acc g.key (sampleList l (draw tp).2).1 g.key)
      rw [gset_self]
      exact sampleList_geneOK hl hwf ht
    · exact hacc

theorem crossMutGene_frame (mr : ℚ) (g : Gene) (acc : Genome) (tp : Tape)
    (k : String) (hk : k ≠ g.key) : (crossMutGene mr g acc tp).1 k = acc k := by
  cases hl : g.list <;> simp only [crossMutGene, hl] <;> split <;> simp [gset, hk]

theorem crossMutGene_tapeOK (mr : ℚ) (g : Gene) (acc : Genome) (tp : Tape)
    (h : tapeOK tp) : tapeOK (crossMutGene mr g acc tp).2 := by
  have ht := tapeOK_tail h
  cases hl : g.list with
  | none =>
    simp only [crossMutGene, hl]
    split
    · exact randomBetween_tapeOK _ _ _ ht
    · exact ht
  | some l =>
    simp only [crossMutGene, hl]
    split
    · show tapeOK (sampleList l (draw tp).2).2
      rw [sampleList_tape]
      exact tapeOK_tail ht
    · exact ht

theorem crossMutGene_ok {mr : ℚ} {g : Gene} (hwf : geneWF g) (acc : Genome)
    (tp : Tape) (h : tapeOK tp) (hacc : geneOK g (acc g.key)) :
    geneOK g ((crossMutGene mr g acc tp).1 g.key) := by
  have ht := tapeOK_tail h
  cases hl : g.list with
  | none =>
    simp only [crossMutGene, hl]
    split
    · show geneOK g (gset acc g.key (GVal.num _) g.key)
      rw [gset_self]
      exact randomBetween_geneOK hl hwf ht
    · exact hacc
  | some l =>
    simp only [crossMutGene, hl]
    split
    · show geneOK g (gset acc g.key (sampleList l (draw tp).2).1 g.key)
      rw [gset_self]
      exact sampleList_geneOK hl hwf ht
    · exact hacc

/-- Claim C2, amended.  Provided every gene is well-formed (a non-empty list
when present; otherwise an ordered range with integral endpoints when the
integer flag is set), gene keys are pairwise distinct, the random draws lie in
the interval from 0 inclusive to 1 exclusive, and, for mutation and crossover,
the parents' gene values already satisfy their genes' constraints, then every
value produced by randomIndiv, mutate or crossover for a gene with a list is
an element of that list, and every numeric value lies between min and max
inclusive and is integral whenever the integer flag is set.  (The claim as
frozen, without these hypotheses, is refuted by the counterexample.) -/
theorem gene_bounds_amended (opts : GeneticOpts)
    (hnd : (opts.genes.map Gene.key).Nodup)
    (hwf : ∀ g ∈ opts.genes, geneWF g) :
    (∀ (tc : TraderConfig) (gen ind : ℕ) (tp : Tape), tapeOK tp →
      ∀ g ∈ opts.genes,
        geneOK g ((randomIndiv tc opts gen ind tp).1.config.stratOpts g.key))
    ∧ (∀ (tc : TraderConfig) (trader : TraderWorker) (gen ind : ℕ) (tp : Tape),
        tapeOK tp →
        (∀ g ∈ opts.genes, geneOK g (trader.config.stratOpts g.key)) →
        ∀ g ∈ opts.genes,
          geneOK g ((mutate tc trader opts gen ind tp).1.config.stratOpts g.key))
    ∧ (∀ (nm : String) (tA tB : TraderWorker) (tp : Tape), tapeOK tp →
        (∀ g ∈ opts.genes, geneOK g (tA.config.stratOpts g.key)) →
        (∀ g ∈ opts.genes, geneOK g (tB.config.stratOpts g.key)) →
        ∀ g ∈ opts.genes,
          geneOK g ((crossover nm tA tB opts tp).1.config.stratOpts g.key)) := by
  refine ⟨?_, ?_, ?_⟩
  · intro tc gen ind tp htp g hg
    show geneOK g ((foldGenes sampleGene opts.genes tc.stratOpts tp).1 g.key)
    exact foldGenes_ok sampleGene (fun _ _ => True)
      (fun g' acc tp' k hk => sampleGene_frame g' acc tp' k hk)
      (fun g' acc tp' h => sampleGene_tapeOK g' acc tp' h)
      opts.genes
      (fun g' _ acc tp' h _ hwf' => sampleGene_ok hwf' acc tp' h)
      tc.stratOpts tp htp hnd (fun g' hg' => ⟨hwf g' hg', trivial⟩) g hg
  · intro tc trader gen ind tp htp hold g hg
    show geneOK g ((foldGenes (mutateGene opts.mutationRate trader.config.stratOpts)
      opts.genes trader.config.stratOpts tp).1 g.key)
    exact foldGenes_ok _ (fun g' v => geneOK g' v)
      (fun g' acc tp' k hk => mutateGene_frame _ _ g' acc tp' k hk)
      (fun g' acc tp' h => mutateGene_tapeOK _ _ g' acc tp' h)
      opts.genes
      (fun g' hg' acc tp' h hp hwf' => mutateGene_ok hwf' (hold g' hg') acc tp' h hp)
      trader.config.stratOpts tp htp hnd
      (fun g' hg' => ⟨hwf g' hg', hold g' hg'⟩) g hg
  · intro nm tA tB tp htp hA hB g hg
    have h1 : ∀ g' ∈ opts.genes, geneOK g'
        ((foldGenes (crossGene tA.config.stratOpts) opts.genes
          tB.config.stratOpts tp).1 g'.key) :=
      foldGenes_ok _ (fun g' v => geneOK g' v)
        (fun g' acc tp' k hk => crossGene_frame _ g' acc tp' k hk)
        (fun g' acc tp' h => crossGene_tapeOK _ g' acc tp' h)
        opts.genes
        (fun g' hg' acc tp' h hp hwf' => crossGene_ok hwf' (hA g' hg') acc tp' h hp)
        tB.config.stratOpts tp htp hnd
        (fun g' hg' => ⟨hwf g' hg', hB g' hg'⟩)
    have htp1 : tapeOK (foldGenes (crossGene tA.config.stratOpts) opts.genes
        tB.config.stratOpts tp).2 :=
      foldGenes_tapeOK _ (fun g' acc tp' h => crossGene_tapeOK _ g' acc tp' h)
        opts.genes _ _ htp
    show geneOK g ((if (draw (foldGenes (crossGene tA.config.stratOpts) opts.genes
        tB.config.stratOpts tp).2).1 < 1 / 4 then
          foldGenes (crossMutGene opts.mutationRate) opts.genes
            (foldGenes (crossGene tA.config.stratOpts) opts.genes
              tB.config.stratOpts tp).1
            (draw (foldGenes (crossGene tA.config.stratOpts) opts.genes
              tB.config.stratOpts tp).2).2
        else ((foldGenes (crossGene tA.config.stratOpts) opts.genes
          tB.config.stratOpts tp).1,
          (draw (foldGenes (crossGene tA.config.stratOpts) opts.genes
            tB.config.stratOpts tp).2).2)).1 g.key)
    split
    · exact foldGenes_ok _ (fun g' v => geneOK g' v)
        (fun g' acc tp' k hk => crossMutGene_frame _ g' acc tp' k hk)
        (fun g' acc tp' h => crossMutGene_tapeOK _ g' acc tp' h)
        opts.genes
        (fun g' hg' acc tp' h hp hwf' => crossMutGene_ok hwf' acc tp' h hp)
        _ _ (tapeOK_tail htp1) hnd
        (fun g' hg' => ⟨hwf g' hg', h1 g' hg'⟩) g hg
    · exact h1 g hg

/-- Claim C2 counterexample.  The gene with key p has the integer flag set on
the fractional range from one half to three halves and no list; the legal
Math.random() outcome 0 makes randomIndiv store the value 0 for it, which lies
below the gene's min, refuting the claim as frozen. -/
theorem gene_bounds_counterexample :
    tapeOK [(0 : ℚ)]
    ∧ cexGene.list = none
    ∧ cexGene.integer = true
    ∧ (randomIndiv { cexConfig with stratOpts := fun _ => GVal.undef }
        cexOpts 0 1 [(0 : ℚ)]).1.config.stratOpts "p" = GVal.num 0
    ∧ ¬ (cexGene.min ≤ (0 : ℚ)) := by
  refine ⟨?_, rfl, rfl, ?_, by norm_num [cexGene]⟩
  · intro r hr
    rw [List.mem_singleton] at hr
    subst hr
    norm_num
  · show gset (fun _ => GVal.undef) cexGene.key
      (GVal.num (randomBetween cexGene.min cexGene.max cexGene.integer
        [(0 : ℚ)]).1) "p" = GVal.num 0
    rw [show cexGene.key = "p" from rfl, gset_self]
    show GVal.num ((⌊((0 : ℚ)) * (cexGene.max - cexGene.min + 1) + cexGene.min⌋ : ℤ) : ℚ)
      = GVal.num 0
    norm_num [cexGene]

/-- Witness for the amended claim C2 at a concrete well-formed gene, config
and tape. -/
theorem gene_bounds_amended_witness :
    geneOK wGene ((randomIndiv cexConfig wOpts 0 0 wTape).1.config.stratOpts
      wGene.key) := by
  have hwf : ∀ g ∈ wOpts.genes, geneWF g := by
    intro g hg
    have : g = wGene := by
      simpa [wOpts] using hg
    subst this
    show geneWF wGene
    simp only [geneWF, wGene]
    exact ⟨by norm_num, fun _ => ⟨⟨0, by norm_num⟩, ⟨10, by norm_num⟩⟩⟩
  have htp : tapeOK wTape := by
    intro r hr
    simp only [wTape, List.mem_cons, List.not_mem_nil, or_false] at hr
    rcases hr with h | h | h | h | h <;> subst h <;> norm_num
  exact (gene_bounds_amended wOpts (by decide) hwf).1 cexConfig 0 0 wTape
    htp wGene (by simp [wOpts])

theorem runEnvLoop_hasRunned (eng : Engine) :
    ∀ (envs : List Backtest) (i : ℕ) (t : TraderWorker) (tr : List EngineCall),
      (runEnvLoop eng envs i t tr).1.hasRunned = t.hasRunned := by
  intro envs
  induction envs with
  | nil => intro i t tr; rfl
  | cons e rest ih =>
    intro i t tr
    simp only [runEnvLoop]
    rcases eng.initR i with s | u
    · rfl
    · rcases eng.startR i with s | u
      · rfl
      · rcases eng.stopR i with s | u
        · rfl
        · exact ih (i + 1) _ _

theorem runEnvLoop_stratOpts (eng : Engine) :
    ∀ (envs : List Backtest) (i : ℕ) (t : TraderWorker) (tr : List EngineCall),
      (runEnvLoop eng envs i t tr).1.config.stratOpts = t.config.stratOpts := by
  intro envs
  induction envs with
  | nil => intro i t tr; rfl
  | cons e rest ih =>
    intro i t tr
    simp only [runEnvLoop]
    rcases eng.initR i with s | u
    · rfl
    · rcases eng.startR i with s | u
      · rfl
      · rcases eng.stopR i with s | u
        · rfl
        · exact ih (i + 1) _ _

theorem runEnvLoop_fitnesses_append (eng : Engine) :
    ∀ (envs : List Backtest) (i : ℕ) (t : TraderWorker) (tr : List EngineCall),
      ∃ s : List Fitness,
        (runEnvLoop eng envs i t tr).1.fitnesses = t.fitnesses ++ s
        ∧ ((runEnvLoop eng envs i t tr).2.2 = none → s.length = envs.length) := by
  intro envs
  induction envs with
  | nil => intro i t tr; exact ⟨[], by simp [runEnvLoop], by simp⟩
  | cons e rest ih =>
    intro i t tr
    simp only [runEnvLoop]
    rcases eng.initR i with s | u
    · exact ⟨[], by simp, by simp⟩
    · rcases eng.startR i with s | u
      · exact ⟨[], by simp, by simp⟩
      · rcases eng.stopR i with s | u
        · exact ⟨[], by simp, by simp⟩
        · obtain ⟨s, hs, hlen⟩ := ih (i + 1)
            ({ { t with config := { t.config with
                env := { t.config.env with backtest := some e },
                flush := i = 0 } } with
              fitnesses := t.fitnesses ++ [eng.fitAt i] })
            (tr ++ [EngineCall.init i, EngineCall.start i, EngineCall.stop i])
          refine ⟨eng.fitAt i :: s, ?_, ?_⟩
          · rw [hs]
            simp
          · intro hnone
            have := hlen hnone
            simp [this]

theorem runEnvLoop_allOk (eng : Engine) (hok : allOk eng) :
    ∀ (envs : List Backtest) (i : ℕ) (t : TraderWorker) (tr : List EngineCall),
      (runEnvLoop eng envs i t tr).2.2 = none
      ∧ (runEnvLoop eng envs i t tr).1.fitnesses
          = t.fitnesses ++ (List.range' i envs.length).map eng.fitAt := by
  intro envs
  induction envs with
  | nil => intro i t tr; exact ⟨rfl, by simp [runEnvLoop]⟩
  | cons e rest ih =>
    intro i t tr
    obtain ⟨h1, h2, h3⟩ := hok i
    simp only [runEnvLoop, h1, h2, h3]
    obtain ⟨ih1, ih2⟩ := ih (i + 1)
      ({ { t with config := { t.config with
          env := { t.config.env with backtest := some e },
          flush := i = 0 } } with
        fitnesses := t.fitnesses ++ [eng.fitAt i] })
      (tr ++ [EngineCall.init i, EngineCall.start i, EngineCall.stop i])
    refine ⟨ih1, ?_⟩
    rw [ih2]
    simp [List.range'_succ]

theorem runEnvLoop_failsAt (eng : Engine) {j : ℕ} {e : String}
    (hok : okUpTo eng j) (hfail : failsAt eng j e) :
    ∀ (envs : List Backtest) (i : ℕ) (t : TraderWorker) (tr : List EngineCall),
      i ≤ j → j - i < envs.length →
      (runEnvLoop eng envs i t tr).2.2 = some e
      ∧ (runEnvLoop eng envs i t tr).1.fitnesses
          = t.fitnesses ++ (List.range' i (j - i)).map eng.fitAt := by
  intro envs
  induction envs with
  | nil => intro i t tr hij hlt; simp at hlt
  | cons env0 rest ih =>
    intro i t tr hij hlt
    by_cases hi : i = j
    · subst hi
      simp only [Nat.sub_self, List.range'_zero, List.map_nil, List.append_nil]
      rcases hfail with hf | ⟨hf1, hf2⟩ | ⟨hf1, hf2, hf3⟩
      · simp only [runEnvLoop, hf]
        exact ⟨trivial, trivial⟩
      · simp only [runEnvLoop, hf1, hf2]
        exact ⟨trivial, trivial⟩
      · simp only [runEnvLoop, hf1, hf2, hf3]
        exact ⟨trivial, trivial⟩
    · have hij' : i < j := lt_of_le_of_ne hij hi
      obtain ⟨h1, h2, h3⟩ := hok i hij'
      simp only [runEnvLoop, h1, h2, h3]
      obtain ⟨ih1, ih2⟩ := ih (i + 1)
        ({ { t with config := { t.config with
            env := { t.config.env with backtest := some env0 },
            flush := i = 0 } } with
          fitnesses := t.fitnesses ++ [eng.fitAt i] })
        (tr ++ [EngineCall.init i, EngineCall.start i, EngineCall.stop i])
        (by omega) (by simp at hlt; omega)
      refine ⟨ih1, ?_⟩
      rw [ih2]
      have hr : List.range' i (j - i) = i :: List.range' (i + 1) (j - (i + 1)) := by
        have : j - i = (j - (i + 1)) + 1 := by omega
        rw [this, List.range'_succ]
      rw [hr]
      simp

theorem runTask_skip (eng : Engine) (envs : List Backtest) (t : TraderWorker)
    (h : t.hasRunned = true) : runTask eng envs t = (t, TaskResult.fulfilled, []) := by
  cases t with
  | mk c f hr =>
    simp only at h
    subst h
    rfl

theorem runTask_allOk (eng : Engine) (envs : List Backtest) (t : TraderWorker)
    (hok : allOk eng) (h : t.hasRunned = false) :
    (runTask eng envs t).2.1 = TaskResult.fulfilled
    ∧ (runTask eng envs t).1.fitnesses
        = t.fitnesses ++ (List.range envs.length).map eng.fitAt
    ∧ (runTask eng envs t).1.hasRunned = true := by
  obtain ⟨h1, h2⟩ := runEnvLoop_allOk eng hok envs 0 t []
  have key : runTask eng envs t
      = ({ (runEnvLoop eng envs 0 t []).1 with hasRunned := true },
         TaskResult.fulfilled, (runEnvLoop eng envs 0 t []).2.1) := by
    unfold runTask
    rw [h]
    simp only [Bool.false_eq_true, if_false]
    rcases hE : runEnvLoop eng envs 0 t [] with ⟨t', tr, o⟩
    rw [hE] at h1
    simp only at h1
    subst h1
    rfl
  rw [key]
  refine ⟨rfl, ?_, rfl⟩
  show (runEnvLoop eng envs 0 t []).1.fitnesses = _
  rw [h2, List.range_eq_range']

theorem runTask_fail (eng : Engine) (envs : List Backtest) (t : TraderWorker)
    {j : ℕ} {e : String} (h : t.hasRunned = false) (hok : okUpTo eng j)
    (hfail : failsAt eng j e) (hj : j < envs.length) :
    (runTask eng envs t).2.1 = TaskResult.rejected e
    ∧ (runTask eng envs t).1.fitnesses
        = t.fitnesses ++ ((List.range j).map eng.fitAt ++ [sentinelFitness])
    ∧ (runTask eng envs t).1.hasRunned = false
    ∧ (eng.status ≠ Status.STOP →
        EngineCall.stopCatch ∈ (runTask eng envs t).2.2) := by
  obtain ⟨h1, h2⟩ := runEnvLoop_failsAt eng hok hfail envs 0 t []
    (Nat.zero_le j) (by omega)
  have h3 := runEnvLoop_hasRunned eng envs 0 t []
  have key : runTask eng envs t
      = ({ (runEnvLoop eng envs 0 t []).1 with
            fitnesses := (runEnvLoop eng envs 0 t []).1.fitnesses
              ++ [sentinelFitness] },
         TaskResult.rejected e,
         if eng.status ≠ Status.STOP
           then (runEnvLoop eng envs 0 t []).2.1 ++ [EngineCall.stopCatch]
           else (runEnvLoop eng envs 0 t []).2.1) := by
    unfold runTask
    rw [h]
    simp only [Bool.false_eq_true, if_false]
    rcases hE : runEnvLoop eng envs 0 t [] with ⟨t', tr, o⟩
    rw [hE] at h1
    simp only at h1
    subst h1
    rfl
  rw [key]
  refine ⟨rfl, ?_, ?_, ?_⟩
  · show (runEnvLoop eng envs 0 t []).1.fitnesses ++ [sentinelFitness] = _
    rw [h2]
    simp only [Nat.sub_zero, List.range_eq_range']
    rw [List.append_assoc]
  · show (runEnvLoop eng envs 0 t []).1.hasRunned = false
    rw [h3, h]
  · intro hst
    rw [if_pos hst]
    exact List.mem_append_right _ (List.mem_singleton_self _)

theorem runTask_stopCatchR_irrel (eng : Engine) (envs : List Backtest)
    (t : TraderWorker) (r : Except String Unit) :
    runTask { eng with stopCatchR := r } envs t = runTask eng envs t := by
  have hloop : ∀ (envs2 : List Backtest) (i : ℕ) (t2 : TraderWorker)
      (tr : List EngineCall),
      runEnvLoop { eng with stopCatchR := r } envs2 i t2 tr
        = runEnvLoop eng envs2 i t2 tr := by
    intro envs2
    induction envs2 with
    | nil => intro i t2 tr; rfl
    | cons e2 rest ih =>
      intro i t2 tr
      simp only [runEnvLoop]
      rcases eng.initR i with s | u
      · rfl
      · rcases eng.startR i with s | u
        · rfl
        · rcases eng.stopR i with s | u
          · rfl
          · exact ih (i + 1) _ _
  unfold runTask
  rw [hloop]

theorem runGenerationAux_length (engFor : ℕ → Engine) (envs : List Backtest) :
    ∀ (gen : List TraderWorker) (i0 : ℕ),
      (runGenerationAux engFor envs i0 gen).length = gen.length := by
  intro gen
  induction gen with
  | nil => intro i0; rfl
  | cons t ts ih =>
    intro i0
    simp only [runGenerationAux, List.length_cons, ih]

theorem runGenerationAux_getD (engFor : ℕ → Engine) (envs : List Backtest) :
    ∀ (gen : List TraderWorker) (i0 i : ℕ), i < gen.length →
      (runGenerationAux engFor envs i0 gen).getD i dummyResult
        = runTask (engFor (i0 + i)) envs (gen.getD i dummyTrader) := by
  intro gen
  induction gen with
  | nil => intro i0 i hi; simp at hi
  | cons t ts ih =>
    intro i0 i hi
    cases i with
    | zero => simp [runGenerationAux]
    | succ m =>
      have hm : m < ts.length := by simpa using hi
      show (runGenerationAux engFor envs (i0 + 1) ts).getD m dummyResult = _
      rw [ih (i0 + 1) m hm]
      have : i0 + 1 + m = i0 + (m + 1) := by omega
      rw [this]
      rfl

theorem runGenerationAux_mem (engFor : ℕ → Engine) (envs : List Backtest) :
    ∀ (gen : List TraderWorker) (i0 : ℕ)
      (r : TraderWorker × TaskResult × List EngineCall),
      r ∈ runGenerationAux engFor envs i0 gen →
      ∃ i t, t ∈ gen ∧ r = runTask (engFor i) envs t := by
  intro gen
  induction gen with
  | nil => intro i0 r hr; simp [runGenerationAux] at hr
  | cons t ts ih =>
    intro i0 r hr
    rcases List.mem_cons.mp hr with hr | hr
    · exact ⟨i0, t, List.mem_cons_self t ts, hr⟩
    · obtain ⟨i, t2, ht2, heq⟩ := ih (i0 + 1) r hr
      exact ⟨i, t2, List.mem_cons_of_mem t ht2, heq⟩

/-- Claim C6.  When exactly one individual's trial throws during a generation,
the exception stays inside that task: the failing individual gets one sentinel
record whose every field is -1 appended after the records of the environments
completed before the failure, its task settles as rejected with the original
error, a best-effort engine stop is attempted exactly when the engine is not
already stopped and its outcome cannot influence the result, every other
individual's task runs to fulfilment with a full record set, and the
generation produces one settled result per individual. -/
theorem trial_failure_isolation (engFor : ℕ → Engine) (envs : List Backtest)
    (gen : List TraderWorker) (k j : ℕ) (e : String)
    (hrun : ∀ t ∈ gen, t.hasRunned = false)
    (hok : ∀ i, i ≠ k → allOk (engFor i))
    (hk1 : okUpTo (engFor k) j) (hk2 : failsAt (engFor k) j e)
    (hj : j < envs.length) :
    (runGeneration engFor envs gen).length = gen.length
    ∧ sentinelFitness.currentProfit = -1 ∧ sentinelFitness.percentTradeWin = -1
    ∧ sentinelFitness.sharpeRat = -1 ∧ sentinelFitness.tradeFrequency = -1
    ∧ sentinelFitness.total = -1
    ∧ (∀ i, i < gen.length → i ≠ k →
        ((runGeneration engFor envs gen).getD i dummyResult).2.1
            = TaskResult.fulfilled
        ∧ ((runGeneration engFor envs gen).getD i dummyResult).1.fitnesses
            = (gen.getD i dummyTrader).fitnesses
              ++ (List.range envs.length).map (engFor i).fitAt)
    ∧ (k < gen.length →
        ((runGeneration engFor envs gen).getD k dummyResult).2.1
            = TaskResult.rejected e
        ∧ ((runGeneration engFor envs gen).getD k dummyResult).1.fitnesses
            = (gen.getD k dummyTrader).fitnesses
              ++ ((List.range j).map (engFor k).fitAt ++ [sentinelFitness])
        ∧ ((engFor k).status ≠ Status.STOP →
            EngineCall.stopCatch
              ∈ ((runGeneration engFor envs gen).getD k dummyResult).2.2)
        ∧ (∀ r, runTask { engFor k with stopCatchR := r } envs
              (gen.getD k dummyTrader)
            = runTask (engFor k) envs (gen.getD k dummyTrader))) := by
  have hmem : ∀ i, i < gen.length → gen.getD i dummyTrader ∈ gen := by
    intro i hi
    rw [List.getD_eq_getElem gen dummyTrader hi]
    exact List.getElem_mem hi
  refine ⟨runGenerationAux_length engFor envs gen 0, rfl, rfl, rfl, rfl, rfl,
    ?_, ?_⟩
  · intro i hi hik
    have hg := runGenerationAux_getD engFor envs gen 0 i hi
    rw [Nat.zero_add] at hg
    show ((runGenerationAux engFor envs 0 gen).getD i dummyResult).2.1 = _
      ∧ ((runGenerationAux engFor envs 0 gen).getD i dummyResult).1.fitnesses = _
    rw [hg]
    obtain ⟨ha, hb, _⟩ := runTask_allOk (engFor i) envs (gen.getD i dummyTrader)
      (hok i hik) (hrun _ (hmem i hi))
    exact ⟨ha, hb⟩
  · intro hkl
    have hg := runGenerationAux_getD engFor envs gen 0 k hkl
    rw [Nat.zero_add] at hg
    obtain ⟨ha, hb, _, hd⟩ := runTask_fail (engFor k) envs
      (gen.getD k dummyTrader) (hrun _ (hmem k hkl)) hk1 hk2 hj
    show ((runGenerationAux engFor envs 0 gen).getD k dummyResult).2.1 = _
      ∧ ((runGenerationAux engFor envs 0 gen).getD k dummyResult).1.fitnesses = _
      ∧ ((engFor k).status ≠ Status.STOP → EngineCall.stopCatch
          ∈ ((runGenerationAux engFor envs 0 gen).getD k dummyResult).2.2)
      ∧ (∀ r, runTask { engFor k with stopCatchR := r } envs
            (gen.getD k dummyTrader)
          = runTask (engFor k) envs (gen.getD k dummyTrader))
    rw [hg]
    exact ⟨ha, hb, hd, fun r => runTask_stopCatchR_irrel (engFor k) envs _ r⟩

/-- Witness for claim C6: a population of five fresh individuals over one
environment where only task 3 throws (at its first environment, on start). -/
theorem trial_failure_isolation_witness :
    ((runGeneration
        (fun i => if i = 3 then
          { initR := fun _ => Except.ok (), startR := fun _ => Except.error "boom",
            stopR := fun _ => Except.ok (), fitAt := fun _ => sentinelFitness,
            status := Status.RUNNING, stopCatchR := Except.ok () }
        else
          { initR := fun _ => Except.ok (), startR := fun _ => Except.ok (),
            stopR := fun _ => Except.ok (), fitAt := fun _ => sentinelFitness,
            status := Status.STOP, stopCatchR := Except.ok () })
        [{ start := 0, stop := 1209600000 }]
        [dummyTrader, dummyTrader, dummyTrader, dummyTrader, dummyTrader]).length
      = 5)
    ∧ ((runGeneration
        (fun i => if i = 3 then
          { initR := fun _ => Except.ok (), startR := fun _ => Except.error "boom",
            stopR := fun _ => Except.ok (), fitAt := fun _ => sentinelFitness,
            status := Status.RUNNING, stopCatchR := Except.ok () }
        else
          { initR := fun _ => Except.ok (), startR := fun _ => Except.ok (),
            stopR := fun _ => Except.ok (), fitAt := fun _ => sentinelFitness,
            status := Status.STOP, stopCatchR := Except.ok () })
        [{ start := 0, stop := 1209600000 }]
        [dummyTrader, dummyTrader, dummyTrader, dummyTrader, dummyTrader]).getD 3
          dummyResult).2.1 = TaskResult.rejected "boom" := by
  have h := trial_failure_isolation
    (fun i => if i = 3 then
      { initR := fun _ => Except.ok (), startR := fun _ => Except.error "boom",
        stopR := fun _ => Except.ok (), fitAt := fun _ => sentinelFitness,
        status := Status.RUNNING, stopCatchR := Except.ok () }
    else
      { initR := fun _ => Except.ok (), startR := fun _ => Except.ok (),
        stopR := fun _ => Except.ok (), fitAt := fun _ => sentinelFitness,
        status := Status.STOP, stopCatchR := Except.ok () })
    [{ start := 0, stop := 1209600000 }]
    [dummyTrader, dummyTrader, dummyTrader, dummyTrader, dummyTrader]
    3 0 "boom"
    (by intro t ht; simp only [List.mem_cons, List.not_mem_nil, or_false] at ht
        rcases ht with h | h | h | h | h <;> subst h <;> rfl)
    (by intro i hik
        simp only [if_neg hik]
        intro m
        exact ⟨rfl, rfl, rfl⟩)
    (by intro i hi; omega)
    (by simp only [if_pos rfl]
        exact Or.inr (Or.inl ⟨rfl, rfl⟩))
    (by simp)
  exact ⟨h.1, ((h.2.2.2.2.2.2.2) (by simp)).1⟩

/-- Claim C9.  When a trial fails partway through the environment list,
exactly one sentinel record is appended regardless of how many environments
remain, the records of the environments completed before the failure are
retained, and hasRunned stays false; the individual can therefore hold fewer
records than there are environments, and if carried into a later generation it
re-runs and appends further records. -/
theorem partial_failure_records (eng : Engine) (envs : List Backtest)
    (t : TraderWorker) (j : ℕ) (e : String)
    (h : t.hasRunned = false) (hok : okUpTo eng j) (hfail : failsAt eng j e)
    (hj : j < envs.length) :
    (runTask eng envs t).1.fitnesses
      = t.fitnesses ++ ((List.range j).map eng.fitAt ++ [sentinelFitness])
    ∧ (runTask eng envs t).1.fitnesses.length = t.fitnesses.length + j + 1
    ∧ (runTask eng envs t).1.hasRunned = false
    ∧ (runTask eng envs t).2.1 = TaskResult.rejected e
    ∧ (∀ eng2, allOk eng2 →
        (runTask eng2 envs (runTask eng envs t).1).1.fitnesses
          = (runTask eng envs t).1.fitnesses
            ++ (List.range envs.length).map eng2.fitAt
        ∧ (runTask eng2 envs (runTask eng envs t).1).1.hasRunned = true) := by
  obtain ⟨ha, hb, hc, _⟩ := runTask_fail eng envs t h hok hfail hj
  refine ⟨hb, ?_, hc, ha, ?_⟩
  · rw [hb]
    simp only [List.length_append, List.length_map, List.length_range,
      List.length_cons, List.length_nil]
    omega
  · intro eng2 hok2
    obtain ⟨_, h2, h3⟩ := runTask_allOk eng2 envs (runTask eng envs t).1 hok2 hc
    exact ⟨h2, h3⟩

/-- Witness for claim C9: a fresh individual over two environments whose
engine succeeds on environment 0 and throws at environment 1. -/
theorem partial_failure_records_witness :
    (runTask
      { initR := fun i => if i = 0 then Except.ok () else Except.error "late",
        startR := fun _ => Except.ok (), stopR := fun _ => Except.ok (),
        fitAt := fun _ => sentinelFitness, status := Status.STOP,
        stopCatchR := Except.ok () }
      [{ start := 0, stop := 1209600000 }, { start := 0, stop := 2419200000 }]
      dummyTrader).1.fitnesses.length = 2
    ∧ (runTask
      { initR := fun i => if i = 0 then Except.ok () else Except.error "late",
        startR := fun _ => Except.ok (), stopR := fun _ => Except.ok (),
        fitAt := fun _ => sentinelFitness, status := Status.STOP,
        stopCatchR := Except.ok () }
      [{ start := 0, stop := 1209600000 }, { start := 0, stop := 2419200000 }]
      dummyTrader).1.hasRunned = false := by
  have h := partial_failure_records
    { initR := fun i => if i = 0 then Except.ok () else Except.error "late",
      startR := fun _ => Except.ok (), stopR := fun _ => Except.ok (),
      fitAt := fun _ => sentinelFitness, status := Status.STOP,
      stopCatchR := Except.ok () }
    [{ start := 0, stop := 1209600000 }, { start := 0, stop := 2419200000 }]
    dummyTrader 1 "late" rfl
    (by intro i hi
        have hi0 : i = 0 := by omega
        subst hi0
        exact ⟨rfl, rfl, rfl⟩)
    (Or.inl rfl)
    (by simp)
  refine ⟨?_, h.2.2.1⟩
  rw [h.2.1]
  rfl

/-- Claim C10.  After a generation's tasks have all settled, every individual
holds at least one fitness record (real or sentinel), provided the environment
list is non-empty and every individual arriving with hasRunned already true
carries records from its earlier run; hence the aggregate getFitness, a sum of
the metric over the records divided by the record count, is well defined (its
denominator is non-zero and the division cancels). -/
theorem fitnesses_nonempty (engFor : ℕ → Engine) (envs : List Backtest)
    (gen : List TraderWorker) (hne : envs ≠ [])
    (hpre : ∀ t ∈ gen, t.hasRunned = true → t.fitnesses ≠ []) :
    ∀ r ∈ runGeneration engFor envs gen,
      r.1.fitnesses ≠ []
      ∧ ((r.1.fitnesses.length : ℚ) ≠ 0)
      ∧ getFitness r.1 FitKey.total * (r.1.fitnesses.length : ℚ)
          = (r.1.fitnesses.map (fun f => f.get FitKey.total)).sum := by
  intro r hr
  obtain ⟨i, t, ht, heq⟩ := runGenerationAux_mem engFor envs gen 0 r hr
  have hfit : r.1.fitnesses ≠ [] := by
    subst heq
    cases hrun : t.hasRunned with
    | true =>
      rw [runTask_skip (engFor i) envs t hrun]
      exact hpre t ht hrun
    | false =>
      obtain ⟨s, hs, hlen⟩ := runEnvLoop_fitnesses_append (engFor i) envs 0 t []
      have key : ((runEnvLoop (engFor i) envs 0 t []).2.2 = none
            ∧ (runTask (engFor i) envs t).1.fitnesses
              = (runEnvLoop (engFor i) envs 0 t []).1.fitnesses)
          ∨ (runTask (engFor i) envs t).1.fitnesses
            = (runEnvLoop (engFor i) envs 0 t []).1.fitnesses
              ++ [sentinelFitness] := by
        unfold runTask
        rw [hrun]
        simp only [Bool.false_eq_true, if_false]
        rcases hE : runEnvLoop (engFor i) envs 0 t [] with ⟨t2, tr, o⟩
        cases o with
        | none => exact Or.inl ⟨rfl, rfl⟩
        | some e2 => exact Or.inr rfl
      rcases key with ⟨hnone, key⟩ | key
      · rw [key, hs]
        have hlen2 := hlen hnone
        intro hcontra
        have hc2 := congrArg List.length hcontra
        simp only [List.length_append, List.length_nil] at hc2
        have : envs.length = 0 := by omega
        exact hne (List.length_eq_zero.mp this)
      · rw [key]
        intro hcontra
        have hc2 := congrArg List.length hcontra
        simp at hc2
  have hlen : ((r.1.fitnesses.length : ℚ) ≠ 0) := by
    intro hz
    have hz2 : r.1.fitnesses.length = 0 := by exact_mod_cast hz
    exact hfit (List.length_eq_zero.mp hz2)
  refine ⟨hfit, hlen, ?_⟩
  show (r.1.fitnesses.map (fun f => f.get FitKey.total)).sum
      / (r.1.fitnesses.length : ℚ) * (r.1.fitnesses.length : ℚ) = _
  exact div_mul_cancel₀ _ hlen

/-- Witness for claim C10: one fresh individual, one environment, an engine
that always succeeds. -/
theorem fitnesses_nonempty_witness :
    (runTask engOK0 envs0 dummyTrader).1.fitnesses ≠ [] := by
  have hmem : runTask engOK0 envs0 dummyTrader
      ∈ runGeneration (fun _ => engOK0) envs0 [dummyTrader] :=
    List.mem_singleton_self _
  exact (fitnesses_nonempty (fun _ => engOK0) envs0 [dummyTrader]
    (by simp [envs0])
    (by intro t ht hrun
        simp only [List.mem_singleton] at ht
        subst ht
        exact absurd hrun (by simp [dummyTrader]))
    (runTask engOK0 envs0 dummyTrader) hmem).1

theorem sortInsert_mem {α : Type} (f : α → ℚ) (x z : α) :
    ∀ l : List α, (z ∈ sortInsert f x l ↔ z = x ∨ z ∈ l) := by
  intro l
  induction l with
  | nil => simp [sortInsert]
  | cons y ys ih =>
    simp only [sortInsert]
    split
    · simp only [List.mem_cons, ih]
      tauto
    · simp only [List.mem_cons]

theorem sortInsert_pairwise {α : Type} (f : α → ℚ) (x : α) :
    ∀ l : List α, l.Pairwise (fun a b => f b ≤ f a) →
      (sortInsert f x l).Pairwise (fun a b => f b ≤ f a) := by
  intro l
  induction l with
  | nil => intro _; simp [sortInsert]
  | cons y ys ih =>
    intro hp
    rw [List.pairwise_cons] at hp
    obtain ⟨hy, hys⟩ := hp
    simp only [sortInsert]
    split
    case isTrue hlt =>
      rw [List.pairwise_cons]
      refine ⟨?_, ih hys⟩
      intro z hz
      rcases (sortInsert_mem f x z ys).mp hz with hz | hz
      · subst hz
        exact le_of_lt hlt
      · exact hy z hz
    case isFalse hge =>
      rw [List.pairwise_cons]
      refine ⟨?_, by rw [List.pairwise_cons]; exact ⟨hy, hys⟩⟩
      intro z hz
      rcases List.mem_cons.mp hz with hz | hz
      · subst hz
        exact le_of_not_lt hge
      · exact le_trans (hy z hz) (le_of_not_lt hge)

theorem sortDesc_pairwise {α : Type} (f : α → ℚ) :
    ∀ l : List α, (sortDesc f l).Pairwise (fun a b => f b ≤ f a) := by
  intro l
  induction l with
  | nil => simp [sortDesc]
  | cons x xs ih => exact sortInsert_pairwise f x _ ih

theorem sortInsert_length {α : Type} (f : α → ℚ) (x : α) :
    ∀ l : List α, (sortInsert f x l).length = l.length + 1 := by
  intro l
  induction l with
  | nil => rfl
  | cons y ys ih =>
    simp only [sortInsert]
    split
    · simp [ih]
    · simp

theorem sortDesc_length {α : Type} (f : α → ℚ) :
    ∀ l : List α, (sortDesc f l).length = l.length := by
  intro l
  induction l with
  | nil => rfl
  | cons x xs ih =>
    show (sortInsert f x (sortDesc f xs)).length = xs.length + 1
    rw [sortInsert_length, ih]

theorem filter_sortInsert {α : Type} (f : α → ℚ) (q : ℚ) (x : α) :
    ∀ l : List α,
      (sortInsert f x l).filter (fitEq f q)
        = if f x = q then x :: l.filter (fitEq f q) else l.filter (fitEq f q) := by
  intro l
  induction l with
  | nil =>
    by_cases hq : f x = q <;> simp [sortInsert, fitEq, hq]
  | cons y ys ih =>
    simp only [sortInsert]
    split
    case isTrue hlt =>
      by_cases hq : f x = q
      · have hyq : ¬ (f y = q) := by
          intro hy
          rw [← hq] at hy
          exact absurd hy (ne_of_gt hlt)
        rw [if_pos hq]
        simp only [List.filter_cons]
        rw [show (fitEq f q y) = false by simp [fitEq, hyq]]
        simp only [Bool.false_eq_true, if_false]
        rw [ih, if_pos hq]
      · rw [if_neg hq]
        simp only [List.filter_cons]
        rw [ih, if_neg hq]
    case isFalse hge =>
      by_cases hq : f x = q
      · rw [if_pos hq]
        simp only [List.filter_cons]
        rw [show (fitEq f q x) = true by simp [fitEq, hq]]
        simp
      · rw [if_neg hq]
        simp only [List.filter_cons]
        rw [show (fitEq f q x) = false by simp [fitEq, hq]]
        simp

theorem filter_sortDesc {α : Type} (f : α → ℚ) (q : ℚ) :
    ∀ l : List α, (sortDesc f l).filter (fitEq f q) = l.filter (fitEq f q) := by
  intro l
  induction l with
  | nil => rfl
  | cons x xs ih =>
    show (sortInsert f x (sortDesc f xs)).filter (fitEq f q) = _
    rw [filter_sortInsert]
    by_cases hq : f x = q
    · rw [if_pos hq, ih]
      simp only [List.filter_cons]
      rw [show (fitEq f q x) = true by simp [fitEq, hq]]
      simp
    · rw [if_neg hq, ih]
      simp only [List.filter_cons]
      rw [show (fitEq f q x) = false by simp [fitEq, hq]]
      simp

theorem sortedDesc_eq_of_filter {α : Type} (f : α → ℚ) :
    ∀ s1 s2 : List α, s1.Pairwise (fun a b => f b ≤ f a) →
      s2.Pairwise (fun a b => f b ≤ f a) →
      (∀ q : ℚ, s1.filter (fitEq f q) = s2.filter (fitEq f q)) → s1 = s2 := by
  intro s1
  induction s1 with
  | nil =>
    intro s2 _ hp2 hf
    cases s2 with
    | nil => rfl
    | cons b t2 =>
      exfalso
      have := hf (f b)
      simp only [List.filter_nil, List.filter_cons] at this
      rw [show (fitEq f (f b) b) = true by simp [fitEq]] at this
      simp at this
  | cons a t1 ih =>
    intro s2 hp1 hp2 hf
    cases s2 with
    | nil =>
      exfalso
      have := hf (f a)
      simp only [List.filter_nil, List.filter_cons] at this
      rw [show (fitEq f (f a) a) = true by simp [fitEq]] at this
      simp at this
    | cons b t2 =>
      rw [List.pairwise_cons] at hp1 hp2
      obtain ⟨ha1, hp1'⟩ := hp1
      obtain ⟨hb1, hp2'⟩ := hp2
      have hble : ∀ z ∈ b :: t2, f z ≤ f b := by
        intro z hz
        rcases List.mem_cons.mp hz with hz | hz
        · subst hz; exact le_refl _
        · exact hb1 z hz
      have hale : ∀ z ∈ a :: t1, f z ≤ f a := by
        intro z hz
        rcases List.mem_cons.mp hz with hz | hz
        · subst hz; exact le_refl _
        · exact ha1 z hz
      have hab : f a = f b := by
        have h1 : f a ≤ f b := by
          have hne : (b :: t2).filter (fitEq f (f a)) ≠ [] := by
            have hfa := hf (f a)
            rw [← hfa]
            simp only [List.filter_cons]
            rw [show (fitEq f (f a) a) = true by simp [fitEq]]
            simp
          have hex : ∃ z ∈ b :: t2, (fitEq f (f a)) z = true := by
            by_contra hno
            push_neg at hno
            refine hne (List.filter_eq_nil.mpr ?_)
            intro z hz
            simp only [Bool.not_eq_true]
            exact Bool.not_eq_true _ |>.mp (hno z hz)
          obtain ⟨z, hz, hzq⟩ := hex
          have hzfa : f z = f a := by
            simpa [fitEq] using hzq
          rw [← hzfa]
          exact hble z hz
        have h2 : f b ≤ f a := by
          have hne : (a :: t1).filter (fitEq f (f b)) ≠ [] := by
            have hfb := hf (f b)
            rw [hfb]
            simp only [List.filter_cons]
            rw [show (fitEq f (f b) b) = true by simp [fitEq]]
            simp
          have hex : ∃ z ∈ a :: t1, (fitEq f (f b)) z = true := by
            by_contra hno
            push_neg at hno
            refine hne (List.filter_eq_nil.mpr ?_)
            intro z hz
            simp only [Bool.not_eq_true]
            exact Bool.not_eq_true _ |>.mp (hno z hz)
          obtain ⟨z, hz, hzq⟩ := hex
          have hzfb : f z = f b := by
            simpa [fitEq] using hzq
          rw [← hzfb]
          exact hale z hz
        exact le_antisymm h1 h2
      have hhead := hf (f a)
      simp only [List.filter_cons] at hhead
      rw [show (fitEq f (f a) a) = true by simp [fitEq],
        show (fitEq f (f a) b) = true by simp [fitEq, hab]] at hhead
      simp only [if_true] at hhead
      have hab2 : a = b := by
        exact (List.cons.injEq _ _ _ _).mp hhead |>.1
      subst hab2
      have htail : ∀ q : ℚ, t1.filter (fitEq f q) = t2.filter (fitEq f q) := by
        intro q
        by_cases hq : f a = q
        · have hta := (List.cons.injEq _ _ _ _).mp hhead |>.2
          rw [← hq]
          exact hta
        · have hfq := hf q
          simp only [List.filter_cons] at hfq
          rw [show (fitEq f q a) = false by simp [fitEq, hq]] at hfq
          simpa using hfq
      exact congrArg (a :: ·) (ih t2 hp1' hp2' htail)

theorem runLen_le {α : Type} (f : α → ℚ) :
    ∀ (xs : List α) (x : α), runLen f x xs ≤ xs.length := by
  intro xs
  induction xs with
  | nil => intro x; simp [runLen]
  | cons y ys ih =>
    intro x
    simp only [runLen]
    split
    · have := ih y
      simp only [List.length_cons]
      omega
    · simp

theorem runLen_take_eq {α : Type} (f : α → ℚ) :
    ∀ (xs : List α) (x : α), ∀ z ∈ xs.take (runLen f x xs), f z = f x := by
  intro xs
  induction xs with
  | nil => intro x z hz; simp at hz
  | cons y ys ih =>
    intro x z hz
    simp only [runLen] at hz
    by_cases h : f y = f x
    · rw [if_pos h, List.take_succ_cons] at hz
      rcases List.mem_cons.mp hz with hz | hz
      · subst hz; exact h
      · rw [ih y z hz]; exact h
    · rw [if_neg h, List.take_zero] at hz
      simp at hz

theorem runLen_drop_lt {α : Type} (f : α → ℚ) :
    ∀ (xs : List α) (x : α),
      (x :: xs).Pairwise (fun a b => f b ≤ f a) →
      ∀ z ∈ xs.drop (runLen f x xs), f z < f x := by
  intro xs
  induction xs with
  | nil => intro x _ z hz; simp at hz
  | cons y ys ih =>
    intro x hp z hz
    rw [List.pairwise_cons] at hp
    obtain ⟨hx, hp'⟩ := hp
    simp only [runLen] at hz
    by_cases h : f y = f x
    · rw [if_pos h, List.drop_succ_cons] at hz
      have hlt := ih y hp' z hz
      rw [← h]
      exact hlt
    · rw [if_neg h, List.drop_zero] at hz
      rw [List.pairwise_cons] at hp'
      obtain ⟨hy, _⟩ := hp'
      rcases List.mem_cons.mp hz with hz | hz
      · subst hz
        exact lt_of_le_of_ne (hx z (List.mem_cons_self _ _)) h
      · have h1 : f z ≤ f y := hy z hz
        have h2 : f y < f x :=
          lt_of_le_of_ne (hx y (List.mem_cons_self _ _)) h
        exact lt_of_le_of_lt h1 h2

theorem runsSplit_subset {α : Type} (f : α → ℚ) :
    ∀ (n : ℕ) (l : List α), l.length ≤ n →
      (∀ z ∈ (runsSplit f l).1, z ∈ l) ∧ (∀ z ∈ (runsSplit f l).2, z ∈ l) := by
  intro n
  induction n with
  | zero =>
    intro l hl
    have : l = [] := List.length_eq_zero.mp (by omega)
    subst this
    simp [runsSplit]
  | succ m ih =>
    intro l hl
    cases l with
    | nil => simp [runsSplit]
    | cons x xs =>
      simp only [runsSplit]
      have hd : (xs.drop (runLen f x xs)).length ≤ m := by
        simp only [List.length_drop]
        simp only [List.length_cons] at hl
        omega
      obtain ⟨ih1, ih2⟩ := ih (xs.drop (runLen f x xs)) hd
      constructor
      · intro z hz
        rcases List.mem_cons.mp hz with hz | hz
        · subst hz; exact List.mem_cons_self _ _
        · exact List.mem_cons_of_mem x (List.drop_subset _ xs (ih1 z hz))
      · intro z hz
        rcases List.mem_append.mp hz with hz | hz
        · exact List.mem_cons_of_mem x (List.take_subset _ xs hz)
        · exact List.mem_cons_of_mem x (List.drop_subset _ xs (ih2 z hz))

theorem runsSplit_filter {α : Type} (f : α → ℚ) (q : ℚ) :
    ∀ (n : ℕ) (s : List α), s.length ≤ n →
      s.Pairwise (fun a b => f b ≤ f a) →
      ((runsSplit f s).1 ++ (runsSplit f s).2).filter (fitEq f q)
        = s.filter (fitEq f q) := by
  intro n
  induction n with
  | zero =>
    intro s hl _
    have hn : s = [] := List.length_eq_zero.mp (by omega)
    subst hn
    simp [runsSplit]
  | succ m ih =>
    intro s hl hs
    cases s with
    | nil => simp [runsSplit]
    | cons x xs =>
      simp only [runsSplit]
      have htake : ∀ z ∈ xs.take (runLen f x xs), f z = f x :=
        runLen_take_eq f xs x
      have hdrop : ∀ z ∈ xs.drop (runLen f x xs), f z < f x :=
        runLen_drop_lt f xs x hs
      obtain ⟨hsub1, hsub2⟩ :=
        runsSplit_subset f (xs.drop (runLen f x xs)).length
          (xs.drop (runLen f x xs)) le_rfl
      have hPd : (xs.drop (runLen f x xs)).Pairwise (fun a b => f b ≤ f a) :=
        List.Pairwise.sublist (List.drop_sublist _ xs)
          ((List.pairwise_cons.mp hs).2)
      have ihd := ih (xs.drop (runLen f x xs))
        (by simp only [List.length_drop]
            simp only [List.length_cons] at hl
            omega)
        hPd
      have hxsf : xs.filter (fitEq f q)
          = (xs.take (runLen f x xs)).filter (fitEq f q)
            ++ (xs.drop (runLen f x xs)).filter (fitEq f q) := by
        rw [← List.filter_append, List.take_append_drop]
      by_cases hq : f x = q
      · have hQ1 : ((runsSplit f (xs.drop (runLen f x xs))).1).filter (fitEq f q)
            = [] := by
          refine List.filter_eq_nil_iff.mpr ?_
          intro z hz
          simp only [fitEq, decide_eq_true_eq]
          rw [← hq]
          exact ne_of_lt (hdrop z (hsub1 z hz))
        have hQ2 : ((runsSplit f (xs.drop (runLen f x xs))).2).filter (fitEq f q)
            = [] := by
          refine List.filter_eq_nil_iff.mpr ?_
          intro z hz
          simp only [fitEq, decide_eq_true_eq]
          rw [← hq]
          exact ne_of_lt (hdrop z (hsub2 z hz))
        have ht : (xs.take (runLen f x xs)).filter (fitEq f q)
            = xs.take (runLen f x xs) := by
          refine List.filter_eq_self.mpr ?_
          intro z hz
          simp only [fitEq, decide_eq_true_eq]
          rw [htake z hz, hq]
        have hdropf : (xs.drop (runLen f x xs)).filter (fitEq f q) = [] := by
          refine List.filter_eq_nil_iff.mpr ?_
          intro z hz
          simp only [fitEq, decide_eq_true_eq]
          rw [← hq]
          exact ne_of_lt (hdrop z hz)
        rw [List.cons_append,
          List.filter_cons_of_pos (by simp [fitEq, hq]),
          List.filter_cons_of_pos (by simp [fitEq, hq]),
          List.filter_append, List.filter_append, hQ1, hQ2, ht, hxsf, ht,
          hdropf]
        simp
      · have ht : (xs.take (runLen f x xs)).filter (fitEq f q) = [] := by
          refine List.filter_eq_nil_iff.mpr ?_
          intro z hz
          simp only [fitEq, decide_eq_true_eq]
          rw [htake z hz]
          exact hq
        rw [List.cons_append,
          List.filter_cons_of_neg (by simp [fitEq, hq]),
          List.filter_cons_of_neg (by simp [fitEq, hq]),
          List.filter_append, List.filter_append, ht, hxsf, ht]
        simp only [List.nil_append]
        rw [← List.filter_append, ihd]

theorem spliceInsert_boundary {α : Type} (x : α) (H T : List α) :
    spliceInsert H.length x (H ++ T) = H ++ x :: T := by
  unfold spliceInsert
  rw [List.take_left, List.drop_left]

theorem rebuildAux_spec {α : Type} (f : α → ℚ) :
    ∀ (rest : List α) (prev : α) (H T : List α),
      rebuildAux f prev rest (H ++ T) H.length
        = (H ++ (runsSplit f (rest.drop (runLen f prev rest))).1)
          ++ ((T ++ rest.take (runLen f prev rest))
            ++ (runsSplit f (rest.drop (runLen f prev rest))).2) := by
  intro rest
  induction rest with
  | nil =>
    intro prev H T
    simp [rebuildAux, runLen, runsSplit]
  | cons y ys ih =>
    intro prev H T
    simp only [rebuildAux]
    by_cases h : f y = f prev
    · rw [if_pos h]
      rw [show (H ++ T) ++ [y] = H ++ (T ++ [y]) from List.append_assoc H T [y]]
      rw [ih y H (T ++ [y])]
      rw [show runLen f prev (y :: ys) = runLen f y ys + 1 by
        simp [runLen, h]]
      rw [List.drop_succ_cons, List.take_succ_cons]
      simp [List.append_assoc]
    · rw [if_neg h]
      rw [spliceInsert_boundary]
      rw [show H ++ y :: T = (H ++ [y]) ++ T by simp]
      rw [show H.length + 1 = (H ++ [y]).length by simp]
      rw [ih y (H ++ [y]) T]
      rw [show runLen f prev (y :: ys) = 0 by simp [runLen, h]]
      rw [List.drop_zero, List.take_zero]
      simp only [runsSplit]
      simp [List.append_assoc]

theorem rebuild_eq_runsSplit {α : Type} (f : α → ℚ) :
    ∀ l : List α, rebuild f l = (runsSplit f l).1 ++ (runsSplit f l).2 := by
  intro l
  cases l with
  | nil => simp [rebuild, runsSplit]
  | cons x xs =>
    show rebuildAux f x xs [x] 1 = _
    have h := rebuildAux_spec f xs x [x] []
    rw [show ([x] : List α) ++ [] = [x] by simp] at h
    rw [show ([x] : List α).length = 1 from rfl] at h
    rw [h]
    simp only [runsSplit]
    simp [List.append_assoc]

theorem rank_filter {α : Type} (f : α → ℚ) (q : ℚ) (l : List α) :
    (rank f l).filter (fitEq f q) = l.filter (fitEq f q) := by
  show (rebuild f (sortDesc f l)).filter (fitEq f q) = _
  rw [rebuild_eq_runsSplit,
    runsSplit_filter f q (sortDesc f l).length (sortDesc f l) le_rfl
      (sortDesc_pairwise f l),
    filter_sortDesc]

theorem sortDesc_rank {α : Type} (f : α → ℚ) (l : List α) :
    sortDesc f (rank f l) = sortDesc f l := by
  refine sortedDesc_eq_of_filter f _ _ (sortDesc_pairwise f _)
    (sortDesc_pairwise f _) ?_
  intro q
  rw [filter_sortDesc, filter_sortDesc, rank_filter]

theorem rank_idem {α : Type} (f : α → ℚ) (l : List α) :
    rank f (rank f l) = rank f l := by
  show rebuild f (sortDesc f (rank f l)) = rank f l
  rw [sortDesc_rank]
  rfl

/-- Claim C3.  The de-duplication ranking of breedNewGeneration (stable
descending sort by aggregate total fitness, then the rebuild that keeps index
0 first, appends each element whose fitness equals its predecessor's to the
end, and inserts every other element at a monotonically advancing front cursor
starting at 1) is idempotent: ranking an already-ranked generation reproduces
the same order. -/
theorem rank_idempotent (generation : List TraderWorker) :
    rankGeneration (rankGeneration generation) = rankGeneration generation :=
  rank_idem (fun t => getFitness t) generation

theorem runsSplit_length {α : Type} (f : α → ℚ) :
    ∀ (n : ℕ) (l : List α), l.length ≤ n →
      (runsSplit f l).1.length + (runsSplit f l).2.length = l.length := by
  intro n
  induction n with
  | zero =>
    intro l hl
    have hn : l = [] := List.length_eq_zero.mp (by omega)
    subst hn
    simp [runsSplit]
  | succ m ih =>
    intro l hl
    cases l with
    | nil => simp [runsSplit]
    | cons x xs =>
      simp only [runsSplit, List.length_cons, List.length_append]
      have hrle := runLen_le f xs x
      have hih := ih (xs.drop (runLen f x xs))
        (by simp only [List.length_drop]
            simp only [List.length_cons] at hl
            omega)
      simp only [List.length_drop] at hih
      simp only [List.length_take]
      omega

theorem rank_length {α : Type} (f : α → ℚ) (l : List α) :
    (rank f l).length = l.length := by
  show (rebuild f (sortDesc f l)).length = l.length
  rw [rebuild_eq_runsSplit, List.length_append,
    runsSplit_length f (sortDesc f l).length (sortDesc f l) le_rfl,
    sortDesc_length]

theorem breedLoop_append (tc : TraderConfig) (ranked : List TraderWorker)
    (opts : GeneticOpts) (gen : ℕ) :
    ∀ (n : ℕ) (acc : List TraderWorker) (tp : Tape),
      opts.popSize - acc.length ≤ n →
      ∃ s, (breedLoop tc ranked opts gen acc tp).1 = acc ++ s := by
  intro n
  induction n with
  | zero =>
    intro acc tp hle
    rw [breedLoop]
    have hn : ¬ acc.length < opts.popSize := by omega
    rw [dif_neg hn]
    exact ⟨[], by simp⟩
  | succ m ih =>
    intro acc tp hle
    rw [breedLoop]
    by_cases h : acc.length < opts.popSize
    · rw [dif_pos h]
      dsimp only
      split
      · obtain ⟨s, hs⟩ := ih (acc ++ [(crossover
          (indivName tc.name gen acc.length)
          ((tournamentSelection ranked (draw tp).2).1.getD 0 dummyTrader)
          ((tournamentSelection ranked (draw tp).2).1.getD 1 dummyTrader)
          opts (tournamentSelection ranked (draw tp).2).2).1]) _
          (by simp only [List.length_append, List.length_cons, List.length_nil]
              omega)
        exact ⟨_, by rw [hs, List.append_assoc]⟩
      · split
        · obtain ⟨s, hs⟩ := ih (acc ++ [(mutate tc
            (pickRandom ranked (draw tp).2).1 opts gen acc.length
            (pickRandom ranked (draw tp).2).2).1]) _
            (by simp only [List.length_append, List.length_cons, List.length_nil]
                omega)
          exact ⟨_, by rw [hs, List.append_assoc]⟩
        · obtain ⟨s, hs⟩ := ih (acc ++ [(randomIndiv tc opts gen acc.length
            (draw tp).2).1]) _
            (by simp only [List.length_append, List.length_cons, List.length_nil]
                omega)
          exact ⟨_, by rw [hs, List.append_assoc]⟩
    · rw [dif_neg h]
      exact ⟨[], by simp⟩

/-- Claim C7.  For every generation, the first elitismCount individuals of the
de-duplication ranking reappear verbatim at the head of the next generation
(so with identical stratOpts genome), and a worker whose hasRunned flag is
true is returned by the scheduler untouched: the task fulfils with an empty
engine-call trace (no init, start or stop) and the previously accumulated
fitness records are reused unchanged. -/
theorem elitism_carryover :
    (∀ (tc : TraderConfig) (generation : List TraderWorker)
      (opts : GeneticOpts) (gen : ℕ) (tp : Tape),
      opts.elitism ≤ generation.length →
      (breedNewGeneration tc generation opts gen tp).1.take opts.elitism
        = (rankGeneration generation).take opts.elitism)
    ∧ (∀ (eng : Engine) (envs : List Backtest) (t : TraderWorker),
        t.hasRunned = true →
        runTask eng envs t = (t, TaskResult.fulfilled, [])
        ∧ (runTask eng envs t).1.fitnesses = t.fitnesses
        ∧ (runTask eng envs t).1.config.stratOpts = t.config.stratOpts) := by
  constructor
  · intro tc generation opts gen tp he
    have hlen : ((rankGeneration generation).take opts.elitism).length
        = opts.elitism := by
      rw [List.length_take]
      refine Nat.min_eq_left ?_
      rw [show (rankGeneration generation).length = generation.length from
        rank_length (fun t => getFitness t) generation]
      exact he
    obtain ⟨s, hs⟩ := breedLoop_append tc (rankGeneration generation) opts gen
      opts.popSize ((rankGeneration generation).take opts.elitism) tp
      (by omega)
    show (breedLoop tc (rankGeneration generation) opts gen
      ((rankGeneration generation).take opts.elitism) tp).1.take opts.elitism
      = _
    rw [hs, List.take_append_eq_append_take, hlen, Nat.sub_self, List.take_zero,
      List.append_nil, List.take_take, Nat.min_self]
  · intro eng envs t h
    rw [runTask_skip eng envs t h]
    exact ⟨rfl, rfl, rfl⟩

/-- Witness for claim C7 at a concrete generation and a concrete already-run
worker. -/
theorem elitism_carryover_witness :
    (breedNewGeneration cexConfig [dummyTrader] wOpts 0 wTape).1.take
        wOpts.elitism
      = (rankGeneration [dummyTrader]).take wOpts.elitism
    ∧ runTask engOK0 envs0 { dummyTrader with hasRunned := true }
      = ({ dummyTrader with hasRunned := true }, TaskResult.fulfilled, []) := by
  have h := elitism_carryover
  exact ⟨h.1 cexConfig [dummyTrader] wOpts 0 wTape (by simp [wOpts]),
    (h.2 engOK0 envs0 { dummyTrader with hasRunned := true } rfl).1⟩

theorem makeGenerationAux_length (tc : TraderConfig) (opts : GeneticOpts)
    (gen : ℕ) :
    ∀ (n ind : ℕ) (tp : Tape), opts.popSize - ind ≤ n →
      (makeGenerationAux tc opts gen ind tp).1.length = opts.popSize - ind := by
  intro n
  induction n with
  | zero =>
    intro ind tp hle
    rw [makeGenerationAux]
    have hn : ¬ ind < opts.popSize := by omega
    rw [dif_neg hn]
    simp
    omega
  | succ m ih =>
    intro ind tp hle
    rw [makeGenerationAux]
    by_cases h : ind < opts.popSize
    · rw [dif_pos h]
      simp only [List.length_cons]
      rw [ih (ind + 1) _ (by omega)]
      omega
    · rw [dif_neg h]
      simp
      omega

theorem makeGenerationAux_hasRunned (tc : TraderConfig) (opts : GeneticOpts)
    (gen : ℕ) :
    ∀ (n ind : ℕ) (tp : Tape), opts.popSize - ind ≤ n →
      ∀ t ∈ (makeGenerationAux tc opts gen ind tp).1, t.hasRunned = false := by
  intro n
  induction n with
  | zero =>
    intro ind tp hle t ht
    rw [makeGenerationAux] at ht
    have hn : ¬ ind < opts.popSize := by omega
    rw [dif_neg hn] at ht
    simp at ht
  | succ m ih =>
    intro ind tp hle t ht
    rw [makeGenerationAux] at ht
    by_cases h : ind < opts.popSize
    · rw [dif_pos h] at ht
      rcases List.mem_cons.mp ht with ht | ht
      · subst ht
        by_cases h0 : ind = 0 <;> simp [h0, randomIndiv, createTraderWorker]
      · exact ih (ind + 1) _ (by omega) t ht
    · rw [dif_neg h] at ht
      simp at ht

theorem makeGenerationAux_fitnesses (tc : TraderConfig) (opts : GeneticOpts)
    (gen : ℕ) :
    ∀ (n ind : ℕ) (tp : Tape), opts.popSize - ind ≤ n →
      ∀ t ∈ (makeGenerationAux tc opts gen ind tp).1, t.fitnesses = [] := by
  intro n
  induction n with
  | zero =>
    intro ind tp hle t ht
    rw [makeGenerationAux] at ht
    have hn : ¬ ind < opts.popSize := by omega
    rw [dif_neg hn] at ht
    simp at ht
  | succ m ih =>
    intro ind tp hle t ht
    rw [makeGenerationAux] at ht
    by_cases h : ind < opts.popSize
    · rw [dif_pos h] at ht
      rcases List.mem_cons.mp ht with ht | ht
      · subst ht
        by_cases h0 : ind = 0 <;> simp [h0, randomIndiv, createTraderWorker]
      · exact ih (ind + 1) _ (by omega) t ht
    · rw [dif_neg h] at ht
      simp at ht

/-- Claim C4 counterexample.  The GenerationConfig with an empty gene list and
elitism 5 not below population size 3 is invalid in the sense of the claim,
yet makeGeneration raises nothing and returns a full population of 3
individuals, and all 3 of their trials are then scheduled and run to
fulfilment by the worker pool instead of the run aborting beforehand. -/
theorem invalid_config_counterexample :
    cexOptsC4.genes = []
    ∧ cexOptsC4.popSize ≤ cexOptsC4.elitism
    ∧ (makeGeneration cexConfig cexOptsC4 0 []).1.length = 3
    ∧ (runGeneration (fun _ => engOK0) envs0
        (makeGeneration cexConfig cexOptsC4 0 []).1).length = 3
    ∧ (∀ r ∈ runGeneration (fun _ => engOK0) envs0
        (makeGeneration cexConfig cexOptsC4 0 []).1,
        r.2.1 = TaskResult.fulfilled ∧ r.1.fitnesses.length = 1) := by
  have hlen : (makeGeneration cexConfig cexOptsC4 0 []).1.length = 3 :=
    makeGenerationAux_length cexConfig cexOptsC4 0 cexOptsC4.popSize 0 []
      (by omega)
  refine ⟨rfl, by norm_num [cexOptsC4], hlen, ?_, ?_⟩
  · show (runGenerationAux (fun _ => engOK0) envs0 0
      (makeGeneration cexConfig cexOptsC4 0 []).1).length = 3
    rw [runGenerationAux_length]
    exact hlen
  · intro r hr
    obtain ⟨i, t, ht, heq⟩ := runGenerationAux_mem (fun _ => engOK0) envs0
      (makeGeneration cexConfig cexOptsC4 0 []).1 0 r hr
    have hfalse : t.hasRunned = false :=
      makeGenerationAux_hasRunned cexConfig cexOptsC4 0 cexOptsC4.popSize 0 []
        (by omega) t ht
    have hok : allOk engOK0 := by
      intro m
      exact ⟨rfl, rfl, rfl⟩
    obtain ⟨h1, h2, _⟩ := runTask_allOk engOK0 envs0 t hok hfalse
    subst heq
    refine ⟨h1, ?_⟩
    rw [h2]
    have ht0 : t.fitnesses = [] :=
      makeGenerationAux_fitnesses cexConfig cexOptsC4 0 cexOptsC4.popSize 0 []
        (by omega) t ht
    rw [ht0]
    simp [envs0]

/-- Claim C4, corrected.  Neither makeGeneration nor breedNewGeneration
validates the GenerationConfig: makeGeneration always returns exactly popSize
individuals, even for an empty gene list, and breedNewGeneration invoked with
elitism at least the generation size (and a generation already at least
popSize large) silently returns the ranked generation without raising; the
invalid configurations of the claim are not detected and trials are scheduled
normally. -/
theorem invalid_config_amended :
    (∀ (tc : TraderConfig) (opts : GeneticOpts) (gen : ℕ) (tp : Tape),
      (makeGeneration tc opts gen tp).1.length = opts.popSize)
    ∧ (∀ (tc : TraderConfig) (generation : List TraderWorker)
        (opts : GeneticOpts) (gen : ℕ) (tp : Tape),
        opts.popSize ≤ generation.length → generation.length ≤ opts.elitism →
        (breedNewGeneration tc generation opts gen tp).1
          = rankGeneration generation) := by
  constructor
  · intro tc opts gen tp
    have h := makeGenerationAux_length tc opts gen opts.popSize 0 tp (by omega)
    simpa using h
  · intro tc generation opts gen tp hpop heli
    have hrl : (rankGeneration generation).length = generation.length :=
      rank_length (fun t => getFitness t) generation
    have htake : (rankGeneration generation).take opts.elitism
        = rankGeneration generation :=
      List.take_of_length_le (by omega)
    show (breedLoop tc (rankGeneration generation) opts gen
      ((rankGeneration generation).take opts.elitism) tp).1 = _
    rw [htake, breedLoop]
    have hn : ¬ (rankGeneration generation).length < opts.popSize := by omega
    rw [dif_neg hn]

/-- Witness for the amended claim C4 at a concrete config and generation. -/
theorem invalid_config_amended_witness :
    (makeGeneration cexConfig cexOptsC4 0 []).1.length = cexOptsC4.popSize
    ∧ (breedNewGeneration cexConfig [dummyTrader]
        { cexOptsC4 with popSize := 1 } 0 wTape).1
      = rankGeneration [dummyTrader] := by
  have h := invalid_config_amended
  exact ⟨h.1 cexConfig cexOptsC4 0 [],
    h.2 cexConfig [dummyTrader] { cexOptsC4 with popSize := 1 } 0 wTape
      (by simp) (by simp [cexOptsC4])⟩

/-- Claim C5 counterexample.  On the gene p with range 0 to 10, both parents
carrying the value 5, mutation rate one half, and the legal random tape
(9/10, 1/10, 1/10, 9/10, 3/10), the source crossover resamples the gene
uniformly in its 25-percent pass and produces 9, while the crossover described
by the claim (whose pass is the perturbation of section 4.5) would produce
5 + 10 times (0.005 + 0.3 times 0.495), which is 1307/200; the two differ, so
the claim's description of the pass is wrong. -/
theorem crossover_mutpass_counterexample :
    tapeOK tape5
    ∧ (crossover "c" tA0 tB0 cOpts5 tape5).1.config.stratOpts "p" = GVal.num 9
    ∧ (crossoverClaimed "c" tA0 tB0 cOpts5 tape5).1.config.stratOpts "p"
        = GVal.num (1307 / 200)
    ∧ ((9 : ℚ) ≠ 1307 / 200) := by
  refine ⟨?_, ?_, ?_, by norm_num⟩
  · intro r hr
    simp only [tape5, List.mem_cons, List.not_mem_nil, or_false] at hr
    rcases hr with h | h | h | h | h <;> subst h <;> norm_num
  · norm_num [crossover, foldGenes, crossGene, crossMutGene, cOpts5, cGene,
      tA0, tB0, tape5, draw, gset, randomBetween, createTraderWorker]
  · norm_num [crossoverClaimed, foldGenes, crossGene, mutateGene, mutNumVal,
      cOpts5, cGene, tA0, tB0, tape5, draw, gset, randomBetween,
      createTraderWorker]

/-- Claim C5, corrected.  crossover starts from parent B's genome; per gene,
with probability 0.5 it takes parent A's value, except that categorical genes
resample uniformly from the list; with probability 0.25 it then applies one
additional pass that, per gene with probability mutationRate, resamples
categorical genes from the list and resamples numeric genes uniformly from the
whole range (floored when the integer flag is set) — not the perturbation pass
of section 4.5 — and the returned child has hasRunned false. -/
theorem crossover_mutpass_amended :
    ∀ (nm : String) (tA tB : TraderWorker) (opts : GeneticOpts) (tp : Tape),
      crossover nm tA tB opts tp = crossoverAmendedSpec nm tA tB opts tp
      ∧ (crossover nm tA tB opts tp).1.hasRunned = false := by
  intro nm tA tB opts tp
  exact ⟨rfl, rfl⟩

end ICT
